import Mathlib

/-!
# Verification of the brewdio reactive calculation graph

A shallow embedding of `src/lib/calculate.ts` (the two `wireCalculations`
variants), the calculation bodies `src/calculations/og.ts`, `fg.ts`
(`fgCalculation`) and `abv.ts` (`abvCalculation`), and the path-resolution
logic inside the wiring routine.

JavaScript numbers are modelled as rationals (`ℚ`); the claims under study
never leave the rational fragment.  JavaScript exceptions are modelled with
`Except String`.  The reactive substrate (`@tanstack/store`'s `Store` and
`Derived`) is an external library whose code is not part of this repository;
its propagation semantics are modelled from the specification (§4.3, §5):
synchronous push-based propagation in which, on a snapshot replacement,
every computation node transitively dependent on a dirty source recomputes
exactly once, in the order established at wiring time.
-/

namespace Brewdio

/-- A JavaScript value, as the calculation engine sees it: `undefined`,
`null`, booleans, (rational) numbers, strings, arrays and plain objects. -/
inductive JSVal where
  | undef : JSVal
  | null : JSVal
  | bool (b : Bool) : JSVal
  | num (q : ℚ) : JSVal
  | str (s : String) : JSVal
  | arr (xs : List JSVal) : JSVal
  | obj (fields : List (String × JSVal)) : JSVal

namespace JSVal

/-- JavaScript truthiness: `undefined`, `null`, `false`, `0` and `""` are
falsy, everything else is truthy (arrays and objects are always truthy). -/
def truthy : JSVal → Bool
  | .undef => false
  | .null => false
  | .bool b => b
  | .num q => decide (q ≠ 0)
  | .str s => decide (s ≠ "")
  | .arr _ => true
  | .obj _ => true

/-- Is the value nullish (`undefined` or `null`)?  Property access on a
nullish receiver throws a `TypeError` unless guarded by `?.`. -/
def nullish : JSVal → Bool
  | .undef => true
  | .null => true
  | _ => false

end JSVal

open JSVal

/-- Helper for `jsSplit`: walk the character list, cutting at each
separator (JavaScript `String.prototype.split` with a one-character
separator; written on character lists so that it evaluates by
reduction). -/
def splitCharsOn (c : Char) : List Char → List Char → List String
  | [], acc => [String.mk acc.reverse]
  | ch :: rest, acc =>
      if ch = c then String.mk acc.reverse :: splitCharsOn c rest []
      else splitCharsOn c rest (ch :: acc)

/-- JavaScript `path.split(".")` (e.g. `"a.b".split(".") = ["a", "b"]`,
`"calculations.".split(".") = ["calculations", ""]`). -/
def jsSplit (s : String) (c : Char) : List String :=
  splitCharsOn c s.data []

/-- JavaScript `s.startsWith(pre)`. -/
def jsStartsWith (s pre : String) : Bool :=
  pre.data.isPrefixOf s.data

/-- Property access `v[k]` on a value already known not to be nullish:
object fields by name, array elements by numeric index (plus `length`);
any other access yields `undefined` (never throws). -/
def jsGetCore : JSVal → String → JSVal
  | .obj fields, k => ((fields.find? (fun p => p.1 = k)).map Prod.snd).getD .undef
  | .arr xs, k =>
      if k = "length" then .num (xs.length : ℚ)
      else match k.toNat? with
        | some i => xs.getD i .undef
        | none => .undef
  | _, _ => (JSVal.undef)

/-- Plain property access `v[k]`: throws a `TypeError` when the receiver is
nullish, otherwise reads the property. -/
def jsGetStrict (v : JSVal) (k : String) : Except String JSVal :=
  if v.nullish then .error "TypeError: cannot read properties of nullish value"
  else .ok (jsGetCore v k)

/-- Optional-chained access `v?.[k]`: nullish receivers give `undefined`
instead of throwing.  This is the accessor the wiring routine's path fold
uses (`(obj as any)?.[k]`). -/
def jsGet (v : JSVal) (k : String) : JSVal :=
  if v.nullish then .undef else jsGetCore v k

/-- The path fold of `wireCalculations`:
`path.reduce((obj, k) => (obj as any)?.[k], start)`. -/
def resolveSegs (start : JSVal) (segs : List String) : JSVal :=
  segs.foldl jsGet start

/-- The same fold written with the exception-aware accessor, recording at
each step that the optional chaining guard is what prevents a `TypeError`:
a nullish accumulator short-circuits to `undefined`, otherwise the plain
(possibly throwing) access runs. -/
def resolveSegsE : JSVal → List String → Except String JSVal
  | v, [] => .ok v
  | v, k :: ks =>
      if v.nullish then resolveSegsE .undef ks
      else do resolveSegsE (← jsGetStrict v k) ks

/-- Read a JavaScript value as a number; values outside the rational-number
fragment (anything that JavaScript arithmetic would turn into `NaN` or a
coercion) are modelled as leaving the fragment. -/
def asNum : JSVal → Except String ℚ
  | .num q => .ok q
  | _ => .error "NaN: value is outside the rational-number fragment"

/-- Read a JavaScript value as an array; calling `.map` on a non-array
throws a `TypeError`. -/
def asArr : JSVal → Except String (List JSVal)
  | .arr xs => .ok xs
  | _ => .error "TypeError: not an array"

/-! ## Unit converters and the OG / FG / ABV calculation bodies
(`src/calculations/og.ts`, `fg`, `abv`) -/

/-- `yieldToPPG` (src/calculations/og.ts): fine-grind percentage to points
per pound per gallon; any other yield shape throws. -/
def yieldToPPG (yield_ : JSVal) : Except String ℚ := do
  let fg ← jsGetStrict yield_ "fine_grind"
  if fg.truthy then
    match ← jsGetStrict fg "unit" with
    | .str "%" =>
        let v ← asNum (← jsGetStrict fg "value")
        return v / 100 * (4621 / 100)
    | _ => throw "Don't know how to handle this yield"
  else
    throw "Don't know how to handle this yield"

/-- `amountToLb` (src/calculations/og.ts): mass/volume amount to pounds. -/
def amountToLb (amount : JSVal) : Except String ℚ := do
  let unit ← jsGetStrict amount "unit"
  match unit with
  | .str "kg" => return (← asNum (← jsGetStrict amount "value")) * (220462 / 100000)
  | .str "g" => return (← asNum (← jsGetStrict amount "value")) / 1000 * (220462 / 100000)
  | .str "lb" => asNum (← jsGetStrict amount "value")
  | .str "lbs" => asNum (← jsGetStrict amount "value")
  | .str "oz" => return (← asNum (← jsGetStrict amount "value")) / 16
  | _ => throw "Unrecognised unit"

/-- `volumeToGallons` (src/calculations/og.ts): volume to US gallons. -/
def volumeToGallons (volume : JSVal) : Except String ℚ := do
  let unit ← jsGetStrict volume "unit"
  match unit with
  | .str "gal" => asNum (← jsGetStrict volume "value")
  | .str "l" => return (← asNum (← jsGetStrict volume "value")) * (264172 / 1000000)
  | .str "ml" => return (← asNum (← jsGetStrict volume "value")) / 1000 * (264172 / 1000000)
  | _ => throw "Unrecognised volume unit"

/-- `gravityUnit` (src/calculations/og.ts): gravity points contributed by
one fermentable addition; `yieldData` is
`(fermentable.type)?.yield || fermentable.yield`, a falsy yield contributes
`0`. -/
def gravityUnit (fermentable : JSVal) : Except String ℚ := do
  let tyYield := jsGet (← jsGetStrict fermentable "type") "yield"
  let yieldData ← if tyYield.truthy then pure tyYield else jsGetStrict fermentable "yield"
  if ¬yieldData.truthy then
    return 0
  else
    let ppg ← yieldToPPG yieldData
    let lb ← amountToLb (← jsGetStrict fermentable "amount")
    return ppg * lb

/-- The efficiency default of the OG body: `efficiency?.value || 70`
(note the JavaScript `||`: a present-but-zero efficiency also falls back
to 70). -/
def efficiencyValueOf (efficiency : JSVal) : Except String ℚ :=
  let v := jsGet efficiency "value"
  if v.truthy then asNum v else .ok 70

/-- Total gravity points of a fermentable list:
`fermentableAdditions.map(gravityUnit).reduce((a, b) => a + b, 0)`. -/
def totalGravityOf (ferms : List JSVal) : Except String ℚ := do
  let units ← ferms.mapM gravityUnit
  return units.foldl (· + ·) 0

/-- The body of `ogCalculation` (src/calculations/og.ts), positional
arguments `[fermentables, batchSize, efficiency]`. -/
def ogBody (args : List JSVal) : Except String JSVal := do
  let fermentables := args.getD 0 .undef
  let batchSize := args.getD 1 .undef
  let efficiency := args.getD 2 .undef
  let fermentableAdditions ← if fermentables.truthy then asArr fermentables else pure []
  let efficiencyValue ← efficiencyValueOf efficiency
  let totalGravity ← totalGravityOf fermentableAdditions
  let totalGravityWithEfficiency := totalGravity * efficiencyValue / 100
  let postBoilVolumeInGallons := (← volumeToGallons batchSize) + 53 / 100
  let gravityUnits := totalGravityWithEfficiency / postBoilVolumeInGallons
  return .num (1 + gravityUnits / 1000)

/-- The body of `fgCalculation` (fg.ts), positional arguments
`[og, cultures]`; attenuation defaults to 75% when no culture with an
attenuation is present. -/
def fgBody (args : List JSVal) : Except String JSVal := do
  let og ← asNum (args.getD 0 .undef)
  let cultures := args.getD 1 .undef
  let attenuationValue ←
    if cultures.truthy then do
      let len ← asNum (← jsGetStrict cultures "length")
      if 0 < len then
        let att ← jsGetStrict (jsGet cultures "0") "attenuation"
        if att.truthy then
          pure ((← asNum (← jsGetStrict att "value")) / 100 : ℚ)
        else
          pure (75 / 100 : ℚ)
      else
        pure (75 / 100 : ℚ)
    else
      pure (75 / 100 : ℚ)
  return .num (og - (og - 1) * attenuationValue)

/-- The body of `abvCalculation` (abv.ts), positional arguments
`[og, fg]`: `(og - fg) * 131.25`. -/
def abvBody (args : List JSVal) : Except String JSVal := do
  let og ← asNum (args.getD 0 .undef)
  let fg ← asNum (args.getD 1 .undef)
  return .num ((og - fg) * (13125 / 100))

/-! ## Calculation definitions and the graph wiring routine
(`src/lib/calculate.ts`) -/

/-- A compiled calculation body: a variadic JavaScript callable, received
positionally (`fn(...processedArgs)`). -/
abbrev CalcFn := List JSVal → Except String JSVal

/-- Modelled from the spec: the outcome of compiling a textual body with
the host's `new Function(...)` primitive, which is not part of this
repository — either a callable, or a syntax error raised at wiring time. -/
inductive ExprSource where
  | valid (fn : CalcFn) : ExprSource
  | invalid (msg : String) : ExprSource

/-- Modelled from the spec: `new Function(...args, "return (expr)(...)")`
compiles the source text once, at wiring time, throwing on a syntax
error. -/
def compileExpr : ExprSource → Except String CalcFn
  | .valid fn => .ok fn
  | .invalid msg => .error s!"SyntaxError: {msg}"

/-- A calculation definition (`src/calculations/types.ts`): static
(pre-compiled TypeScript function) or dynamic (textual expression). -/
inductive CalcDef where
  | static (id : String) (dependsOn : List String) (fn : CalcFn) : CalcDef
  | dynamic (id : String) (dependsOn : List String) (expr : ExprSource) : CalcDef

namespace CalcDef

def id : CalcDef → String
  | .static i _ _ => i
  | .dynamic i _ _ => i

def dependsOn : CalcDef → List String
  | .static _ d _ => d
  | .dynamic _ d _ => d

end CalcDef

/-- The `og` definition as wired by the application (`src/calculations/og.ts`,
exported as `OG : StaticCalculation<number>`). -/
def OG : CalcDef :=
  .static "og"
    ["recipe.ingredients.fermentable_additions", "recipe.batch_size",
      "recipe.efficiency.brewhouse"]
    ogBody

/-- The `fg` definition (fg.ts, exported as `FG`). -/
def FG : CalcDef :=
  .static "fg" ["calculations.og", "recipe.ingredients.culture_additions"] fgBody

/-- The `abv` definition (abv.ts, exported as `ABV`). -/
def ABV : CalcDef :=
  .static "abv" ["calculations.og", "calculations.fg"] abvBody

/-- A resolved dependency source, positionally aligned with `dependsOn`:
the snapshot store (`stores.state`), a live computation node
(`deriveds.get(key)`), or a Result Registry slot
(`stores.calculations.get(key)`). -/
inductive DepSource where
  | stateStore : DepSource
  | derivedNode (key : String) : DepSource
  | calcStore (key : String) : DepSource
  deriving DecidableEq, Repr

/-- A mounted computation node (a TanStack `Derived`): its definition data,
compiled callable and current value (`derived.state`). -/
structure DNode where
  id : String
  dependsOn : List String
  deps : List DepSource
  fn : CalcFn
  value : JSVal

/-- The engine state: current snapshot (`stores.state.state`), the Result
Registry (`stores.calculations`, one slot per calculation id), and the
mounted nodes in wiring order (the `deriveds` map, ordered). -/
structure WireState where
  snapshot : JSVal
  registry : List (String × JSVal)
  nodes : List DNode

/-- `Map.set` semantics on the registry: overwrite the slot if the key is
present, append it otherwise. -/
def regSet (r : List (String × JSVal)) (k : String) (v : JSVal) :
    List (String × JSVal) :=
  if r.any (fun p => p.1 = k) then
    r.map (fun p => if p.1 = k then (k, v) else p)
  else
    r ++ [(k, v)]

/-- `Map.get` semantics on the registry (`stores.calculations.get(key)`). -/
def regGet (r : List (String × JSVal)) (k : String) : Option JSVal :=
  (r.find? (fun p => p.1 = k)).map Prod.snd

/-- `deriveds.get(key)` semantics: last insertion wins. -/
def findNode (ns : List DNode) (k : String) : Option DNode :=
  ns.foldl (fun acc n => if n.id = k then some n else acc) none

/-- Update the value of the node with the given id (`Derived.state` after a
recompute). -/
def updateNode (ns : List DNode) (k : String) (v : JSVal) : List DNode :=
  ns.map (fun n => if n.id = k then { n with value := v } else n)

/-- Modelled from the spec: reading a dependency source's current value
(`currDepVals[idx]`) — the snapshot store yields the current snapshot, a
live node yields its `Derived.state`, a registry slot yields the
`Store.state` held in that slot. -/
def depCurrVal (st : WireState) : DepSource → JSVal
  | .stateStore => st.snapshot
  | .derivedNode k => ((findNode st.nodes k).map DNode.value).getD .undef
  | .calcStore k => (regGet st.registry k).getD (JSVal.undef)

/-- The argument extraction inside the Derived's `fn`
(src/lib/calculate.ts, `processedArgs`): a `calculations.`-prefixed
dependency passes the source value through unchanged; any other dependency
splits the path on `"."` and folds it over the source value (the whole
snapshot). -/
def processedArgs (st : WireState) (dependsOn : List String)
    (deps : List DepSource) : List JSVal :=
  (List.zip dependsOn deps).map fun pd =>
    if jsStartsWith pd.1 "calculations." then depCurrVal st pd.2
    else resolveSegs (depCurrVal st pd.2) (jsSplit pd.1 '.')

/-- The dependency binder of the second `wireCalculations` variant
(src/lib/calculate.ts lines 258–276): a `calculations.` path binds the live
`Derived` when that calculation was already built in this pass, and falls
back to the Result Registry slot otherwise; every other path binds the
snapshot store. -/
def bindPath (builtIds : List String) (path : String) : DepSource :=
  if jsStartsWith path "calculations." then
    let key := (jsSplit path '.').getD 1 ""
    if builtIds.contains key then .derivedNode key else .calcStore key
  else
    .stateStore

def buildDeps (builtIds : List String) (dependsOn : List String) :
    List DepSource :=
  dependsOn.map (bindPath builtIds)

/-- The dependency binder of the first `wireCalculations` variant
(src/lib/calculate.ts lines 73–81): a `calculations.` path always binds the
Result Registry slot (`stores.calculations.get(key)`), never the live
node. -/
def bindPathV1 (path : String) : DepSource :=
  if jsStartsWith path "calculations." then
    .calcStore ((jsSplit path '.').getD 1 "")
  else
    .stateStore

def buildDepsV1 (dependsOn : List String) : List DepSource :=
  dependsOn.map bindPathV1

/-- The outcome of one `wireCalculations` call: the engine state, the
teardown handles returned so far (`unsubs.length`), the mounted node ids in
mount order, and the pending exception, if the routine threw. -/
structure WireOutcome where
  st : WireState
  unsubs : Nat
  mounted : List String
  err : Option String

/-- The calculation-function adapter inside the wiring loop: a static body
is used as-is, a dynamic body is compiled (and may throw). -/
def compileOf : CalcDef → Except String CalcFn
  | .static _ _ fn => .ok fn
  | .dynamic _ _ expr => compileExpr expr

/-- One iteration of the second variant's wiring loop: compile the body
(fail fast on a syntax error), bind the dependencies against the
already-built nodes, mount the node (first computation), seed the node's
Result Registry slot immediately, and record the teardown handle.  A thrown
error stops processing of all remaining definitions. -/
def wireStep (acc : WireOutcome) (d : CalcDef) : WireOutcome :=
  if acc.err.isSome then acc
  else
    match compileOf d with
    | .error e => { acc with err := some e }
    | .ok fn =>
        let builtIds := acc.st.nodes.map DNode.id
        let deps := buildDeps builtIds d.dependsOn
        match fn (processedArgs acc.st d.dependsOn deps) with
        | .error e => { acc with err := some e }
        | .ok v =>
            let node : DNode := ⟨d.id, d.dependsOn, deps, fn, v⟩
            { st := ⟨acc.st.snapshot, regSet acc.st.registry d.id v,
                acc.st.nodes ++ [node]⟩,
              unsubs := acc.unsubs + 1,
              mounted := acc.mounted ++ [d.id],
              err := none }

/-- The registry after step 1 of wiring: one empty (`undefined`) slot per
definition id. -/
def seedRegistry (defs : List CalcDef) : List (String × JSVal) :=
  defs.foldl (fun r d => regSet r d.id .undef) []

/-- The second `wireCalculations` variant (src/lib/calculate.ts lines
227–332): seed every slot with `undefined`, then process definitions in
order — compile, bind (preferring live nodes), mount, and seed each slot
immediately after its own node's mount. -/
def wireCalculations (snap : JSVal) (defs : List CalcDef) : WireOutcome :=
  defs.foldl wireStep ⟨⟨snap, seedRegistry defs, []⟩, 0, [], none⟩

/-- One iteration of the first variant's wiring loop: compile, bind with
`buildDepsV1` (registry slots for every calculation reference), mount, and
record the teardown handle — but do not seed the slot. -/
def wireStepV1 (acc : WireOutcome) (d : CalcDef) : WireOutcome :=
  if acc.err.isSome then acc
  else
    match compileOf d with
    | .error e => { acc with err := some e }
    | .ok fn =>
        let deps := buildDepsV1 d.dependsOn
        match fn (processedArgs acc.st d.dependsOn deps) with
        | .error e => { acc with err := some e }
        | .ok v =>
            let node : DNode := ⟨d.id, d.dependsOn, deps, fn, v⟩
            { st := ⟨acc.st.snapshot, acc.st.registry, acc.st.nodes ++ [node]⟩,
              unsubs := acc.unsubs + 1,
              mounted := acc.mounted ++ [d.id],
              err := none }

/-- The final pass of the first variant: `stores.calculations.get(def.id)
?.setState(() => deriveds.get(def.id).state)` for every definition, in
definition order. -/
def finalSeed (nodes : List DNode) (defs : List CalcDef)
    (r : List (String × JSVal)) : List (String × JSVal) :=
  defs.foldl
    (fun r d => regSet r d.id (((findNode nodes d.id).map DNode.value).getD .undef)) r

/-- The tail of the first variant: if the loop threw, the exception
propagates (the final pass never runs); otherwise every slot is seeded from
its node's value in a final pass. -/
def finishV1 (defs : List CalcDef) (afterLoop : WireOutcome) : WireOutcome :=
  match afterLoop.err with
  | some _ => afterLoop
  | none =>
      { afterLoop with
        st := ⟨afterLoop.st.snapshot,
          finalSeed afterLoop.st.nodes defs afterLoop.st.registry,
          afterLoop.st.nodes⟩ }

/-- The first `wireCalculations` variant (src/lib/calculate.ts lines
57–127): seed empty slots, mount every node (binding calculation references
to registry slots), and only then, in a final pass, copy every node's value
into its slot. -/
def wireCalculationsV1 (snap : JSVal) (defs : List CalcDef) : WireOutcome :=
  finishV1 defs
    (defs.foldl wireStepV1 ⟨⟨snap, seedRegistry defs, []⟩, 0, [], none⟩)

/-! ## Propagation

Modelled from the spec (§4.3, §5): a snapshot replacement walks every
computation node in the order established at wiring time; a node recomputes
exactly once, and only if one of its dependency sources is dirty — the
snapshot store itself (a `setState` always notifies), a node that
recomputed earlier in this propagation, or a registry slot written earlier
in this propagation.  Each recompute immediately mirrors the node's new
value into its Result Registry slot. -/

/-- The running state of one propagation pass: the engine state, the ids
recomputed so far (in order — the observable "spy" on calculation bodies),
and the pending exception, if a body threw. -/
structure PassResult where
  st : WireState
  recomputed : List String
  err : Option String

/-- Is this dependency source dirty, given the ids recomputed so far in the
current propagation? -/
def dirtyDep (recomputed : List String) : DepSource → Bool
  | .stateStore => true
  | .derivedNode k => recomputed.contains k
  | .calcStore k => recomputed.contains k

/-- Modelled from the spec: one node's turn in a propagation pass — if any
dependency source is dirty, recompute the body on current dependency
values, store the new value in the node and mirror it into the registry
slot. -/
def passStep (acc : PassResult) (n : DNode) : PassResult :=
  if acc.err.isSome then acc
  else if n.deps.any (dirtyDep acc.recomputed) then
    match n.fn (processedArgs acc.st n.dependsOn n.deps) with
    | .error e => { acc with err := some e }
    | .ok v =>
        { st := ⟨acc.st.snapshot, regSet acc.st.registry n.id v,
            updateNode acc.st.nodes n.id v⟩,
          recomputed := acc.recomputed ++ [n.id],
          err := none }
  else acc

/-- Modelled from the spec (§5): replacing the snapshot
(`stores.state.setState`) triggers one synchronous propagation pass over
the nodes in wiring order. -/
def propagate (st : WireState) (newSnap : JSVal) : PassResult :=
  st.nodes.foldl passStep ⟨⟨newSnap, st.registry, st.nodes⟩, [], none⟩

/-- The set (kept in wiring order) of node ids transitively dependent on
the snapshot store, computed structurally from the dependency sources: a
node is dirty when one of its sources is the snapshot store or an
already-dirty node or slot. -/
def transDirty : List DNode → List String → List String
  | [], acc => acc
  | n :: rest, acc =>
      if n.deps.any (dirtyDep acc) then transDirty rest (acc ++ [n.id])
      else transDirty rest acc

/-! ## Concrete fixtures used by the scenario claims -/

/-- The C6/C8 scenario fermentable: 35 gravity points per pound per gallon
(`fine_grind` of `350000/4621` percent, i.e. `35 / 46.21 * 100`), 10 lb. -/
def ferm35x10 : JSVal := .obj [
  ("type", .obj [("yield", .obj [("fine_grind",
    .obj [("unit", .str "%"), ("value", .num (350000/4621))])])]),
  ("amount", .obj [("unit", .str "lb"), ("value", .num 10)])]

/-- The §8 "gravity chain" scenario snapshot, in the shape the code's
calculations read: one 35-PPG, 10 lb fermentable, 5 gal batch, 70%
brewhouse efficiency. -/
def snapGravity : JSVal := .obj [("recipe", .obj [
  ("ingredients", .obj [("fermentable_additions", .arr [ferm35x10])]),
  ("batch_size", .obj [("unit", .str "gal"), ("value", .num 5)]),
  ("efficiency", .obj [("brewhouse",
    .obj [("unit", .str "%"), ("value", .num 70)])])])]

/-- A snapshot with no fermentables array (the §8 "missing ingredient
list" scenario): `recipe.ingredients` exists but holds no
`fermentable_additions` key. -/
def snapNoFerms : JSVal := .obj [("recipe", .obj [
  ("ingredients", .obj []),
  ("batch_size", .obj [("unit", .str "gal"), ("value", .num 5)]),
  ("efficiency", .obj [("brewhouse",
    .obj [("unit", .str "%"), ("value", .num 70)])])])]

/-- The "dependent alcohol calc" scenario snapshot: batch volume chosen so
that the post-boil volume is `533/150 + 0.53 = 49/12` gal and
`og = 1 + 245/(49/12)/1000 = 1.060` exactly. -/
def snapAlcohol : JSVal := .obj [("recipe", .obj [
  ("ingredients", .obj [("fermentable_additions", .arr [ferm35x10]),
    ("culture_additions", .undef)]),
  ("batch_size", .obj [("unit", .str "gal"), ("value", .num (533/150))]),
  ("efficiency", .obj [("brewhouse",
    .obj [("unit", .str "%"), ("value", .num 70)])])])]

/-- The initial snapshot of the global store (src/lib/calculate.ts lines
178–207): empty fermentables, 5 gal batch, 0% brewhouse efficiency. -/
def snapInitial : JSVal := .obj [("recipe", .obj [
  ("name", .str ""), ("type", .str "cider"), ("author", .str ""),
  ("batch_size", .obj [("unit", .str "gal"), ("value", .num 5)]),
  ("efficiency", .obj [("conversion", .undef), ("lauter", .undef),
    ("mash", .undef),
    ("brewhouse", .obj [("unit", .str "%"), ("value", .num 0)])]),
  ("ingredients", .obj [("fermentable_additions", .arr []),
    ("hop_additions", .undef), ("miscellaneous_additions", .undef),
    ("culture_additions", .undef), ("water_additions", .undef)])])]

/-- A JavaScript identity function `(x) => x`, used as a dynamic
calculation body in the ordering fixtures. -/
def idFn : CalcFn := fun args => .ok (args.getD 0 .undef)

/-- Dynamic calculation `u`, reading the snapshot path `recipe.x`. -/
def uDef : CalcDef := .dynamic "u" ["recipe.x"] (.valid idFn)

/-- Dynamic calculation `d`, reading `calculations.u`. -/
def dDef : CalcDef := .dynamic "d" ["calculations.u"] (.valid idFn)

/-- A minimal snapshot `{ recipe: { x: 5, name: "a" } }` for the ordering
and spy fixtures. -/
def snapPair : JSVal := .obj [("recipe", .obj [("x", .num 5), ("name", .str "a")])]

/-- `snapPair` with only `recipe.name` changed. -/
def snapPairRenamed : JSVal :=
  .obj [("recipe", .obj [("x", .num 5), ("name", .str "b")])]

/-- A dynamic definition whose expression source is syntactically
invalid. -/
def invalidDyn : CalcDef := .dynamic "bad" ["recipe.x"] (.invalid "unexpected token")

/-! ## General helper lemmas -/

theorem someNumExt {q r : ℚ} (hq : q = r) :
    (some (JSVal.num q) : Option JSVal) = some (.num r) := by rw [hq]

theorem okNumExt {q r : ℚ} (hq : q = r) :
    (Except.ok (JSVal.num q) : Except String JSVal) = .ok (.num r) := by rw [hq]

/-! ## Registry and node-list lemmas -/

/-- The registry holds the key `k` with value `v`: looking it up yields
`v`, and every entry with that key carries `v`. -/
def RegHas (r : List (String × JSVal)) (k : String) (v : JSVal) : Prop :=
  regGet r k = some v ∧ ∀ p ∈ r, p.1 = k → p.2 = v

theorem mapSelf {α : Type} {l : List α} {f : α → α} (h : ∀ a ∈ l, f a = a) :
    l.map f = l := by
  induction l with
  | nil => rfl
  | cons a l ih =>
      simp only [List.map_cons, h a (List.mem_cons_self a l)]
      rw [ih fun b hb => h b (List.mem_cons_of_mem a hb)]

theorem regGet_mapSet_self {r : List (String × JSVal)} {k : String}
    (v : JSVal) (h : ∃ p ∈ r, p.1 = k) :
    regGet (r.map fun p => if p.1 = k then (k, v) else p) k = some v := by
  induction r with
  | nil => obtain ⟨p, hp, -⟩ := h; cases hp
  | cons q r ih =>
      by_cases hq : q.1 = k
      · simp [regGet, List.find?_cons_of_pos, hq]
      · simp only [List.map_cons, if_neg hq]
        unfold regGet
        rw [List.find?_cons_of_neg _ (by simpa using hq)]
        obtain ⟨p, hp, hpk⟩ := h
        rcases List.mem_cons.1 hp with rfl | hp'
        · exact absurd hpk hq
        · exact ih ⟨p, hp', hpk⟩

theorem regGet_mapSet_ne {r : List (String × JSVal)} {k k' : String}
    (v : JSVal) (hne : k' ≠ k) :
    regGet (r.map fun p => if p.1 = k then (k, v) else p) k' = regGet r k' := by
  induction r with
  | nil => rfl
  | cons q r ih =>
      by_cases hq : q.1 = k
      · simp only [List.map_cons, if_pos hq]
        unfold regGet
        rw [List.find?_cons_of_neg _ (by simpa using fun h => hne h.symm),
          List.find?_cons_of_neg _ (by simpa using fun h => hne (hq ▸ h).symm)]
        exact ih
      · simp only [List.map_cons, if_neg hq]
        by_cases hq' : q.1 = k'
        · unfold regGet
          rw [List.find?_cons_of_pos _ (by simpa using hq'),
            List.find?_cons_of_pos _ (by simpa using hq')]
        · unfold regGet
          rw [List.find?_cons_of_neg _ (by simpa using hq'),
            List.find?_cons_of_neg _ (by simpa using hq')]
          exact ih

theorem regGet_append_nomem {r : List (String × JSVal)} {k : String}
    (l : List (String × JSVal)) (h : ∀ p ∈ r, p.1 ≠ k) :
    regGet (r ++ l) k = regGet l k := by
  induction r with
  | nil => rfl
  | cons q r ih =>
      unfold regGet at ih ⊢
      rw [List.cons_append,
        List.find?_cons_of_neg _ (by simpa using h q (List.mem_cons_self q r))]
      exact ih fun p hp => h p (List.mem_cons_of_mem q hp)

theorem regGet_append_left {r l : List (String × JSVal)} {k : String}
    {v : JSVal} (h : regGet r k = some v) : regGet (r ++ l) k = some v := by
  unfold regGet at h ⊢
  obtain ⟨p, hp, hpv⟩ := Option.map_eq_some'.1 h
  rw [List.find?_append, hp]
  simpa using hpv

theorem regSet_self {r : List (String × JSVal)} {k : String} {v : JSVal}
    (h : RegHas r k v) : regSet r k v = r := by
  obtain ⟨hget, hall⟩ := h
  unfold regGet at hget
  obtain ⟨p, hp, hpv⟩ := Option.map_eq_some'.1 hget
  have hmem := List.mem_of_find?_eq_some hp
  have hkey : p.1 = k := by simpa using List.find?_some hp
  unfold regSet
  rw [if_pos (List.any_eq_true.2 ⟨p, hmem, by simpa using hkey⟩)]
  refine mapSelf fun q hq => ?_
  by_cases hk : q.1 = k
  · obtain ⟨a, b⟩ := q
    have hb : b = v := hall (a, b) hq hk
    simp only at hk
    simp [if_pos hk, hk, hb]
  · simp only [if_neg hk]

theorem regSet_RegHas (r : List (String × JSVal)) (k : String) (v : JSVal) :
    RegHas (regSet r k v) k v := by
  unfold regSet
  by_cases h : r.any (fun p => p.1 = k)
  · rw [if_pos h]
    obtain ⟨p, hpmem, hpk⟩ := List.any_eq_true.1 h
    refine ⟨regGet_mapSet_self v ⟨p, hpmem, by simpa using hpk⟩, ?_⟩
    intro q hq hqk
    obtain ⟨p', hp', hfp'⟩ := List.mem_map.1 hq
    by_cases hp'k : p'.1 = k
    · rw [if_pos hp'k] at hfp'
      rw [← hfp']
    · rw [if_neg hp'k] at hfp'
      exact absurd (hfp' ▸ hqk) hp'k
  · rw [if_neg h]
    have hnone : ∀ p ∈ r, p.1 ≠ k := fun p hp hpk =>
      h (List.any_eq_true.2 ⟨p, hp, by simpa using hpk⟩)
    refine ⟨?_, ?_⟩
    · rw [regGet_append_nomem _ hnone]
      simp [regGet, List.find?]
    · intro q hq hqk
      rcases List.mem_append.1 hq with h1 | h1
      · exact absurd hqk (hnone q h1)
      · rcases List.mem_singleton.1 h1 with rfl
        rfl

theorem RegHas_regSet_ne {r : List (String × JSVal)} {k k' : String}
    {v v' : JSVal} (h : RegHas r k' v') (hne : k' ≠ k) :
    RegHas (regSet r k v) k' v' := by
  obtain ⟨hget, hall⟩ := h
  unfold regSet
  by_cases hany : r.any (fun p => p.1 = k)
  · rw [if_pos hany]
    refine ⟨(regGet_mapSet_ne v hne).trans hget, ?_⟩
    intro q hq hqk
    obtain ⟨p', hp', hfp'⟩ := List.mem_map.1 hq
    by_cases hp'k : p'.1 = k
    · rw [if_pos hp'k] at hfp'
      exact absurd (hfp' ▸ hqk : (k, v).1 = k') fun hh => hne hh.symm
    · rw [if_neg hp'k] at hfp'
      exact hfp' ▸ hall p' hp' (hfp' ▸ hqk)
  · rw [if_neg hany]
    refine ⟨regGet_append_left hget, ?_⟩
    intro q hq hqk
    rcases List.mem_append.1 hq with h1 | h1
    · exact hall q h1 hqk
    · rcases List.mem_singleton.1 h1 with rfl
      exact absurd hqk fun hh => hne hh.symm

/-! ## Node-list lemmas -/

/-- The node ids are pairwise distinct (the documented uniqueness invariant
on calculation ids). -/
def NodupIds (ns : List DNode) : Prop := (ns.map DNode.id).Nodup

theorem nodupIds_mem_eq {ns : List DNode} (h : NodupIds ns) {m n : DNode}
    (hm : m ∈ ns) (hn : n ∈ ns) (hid : m.id = n.id) : m = n := by
  induction ns with
  | nil => cases hm
  | cons a t ih =>
      have ht : NodupIds t := (List.nodup_cons.1 h).2
      have ha : a.id ∉ t.map DNode.id := (List.nodup_cons.1 h).1
      rcases List.mem_cons.1 hm with rfl | hm' <;>
        rcases List.mem_cons.1 hn with rfl | hn'
      · rfl
      · exact absurd (hid ▸ List.mem_map_of_mem DNode.id hn') ha
      · exact absurd (hid ▸ List.mem_map_of_mem DNode.id hm') ha
      · exact ih ht hm' hn'

theorem findNode_append_one (ns : List DNode) (x : DNode) (k : String) :
    findNode (ns ++ [x]) k = if x.id = k then some x else findNode ns k := by
  unfold findNode
  rw [List.foldl_append]
  rfl

theorem updateNode_map_id (ns : List DNode) (k : String) (v : JSVal) :
    (updateNode ns k v).map DNode.id = ns.map DNode.id := by
  unfold updateNode
  rw [List.map_map]
  refine List.map_congr_left fun n _ => ?_
  by_cases h : n.id = k <;> simp [h]

theorem updateNode_self {ns : List DNode} {k : String} {v : JSVal}
    (h : ∀ m ∈ ns, m.id = k → m.value = v) : updateNode ns k v = ns := by
  refine mapSelf fun n hn => ?_
  by_cases hk : n.id = k
  · obtain ⟨i, dOn, dp, f, val⟩ := n
    have : val = v := h _ hn hk
    simp [if_pos hk, this]
  · simp [if_neg hk]

theorem mem_updateNode_of_ne {ns : List DNode} {n : DNode} {k : String}
    {v : JSVal} (hn : n ∈ ns) (hne : n.id ≠ k) : n ∈ updateNode ns k v := by
  have : (if n.id = k then { n with value := v } else n) = n := if_neg hne
  exact this ▸ List.mem_map_of_mem _ hn

theorem findNode_updateNode_ne (ns : List DNode) {k k' : String} (v : JSVal)
    (hne : k' ≠ k) : findNode (updateNode ns k v) k' = findNode ns k' := by
  unfold findNode updateNode
  induction ns using List.reverseRecOn with
  | nil => rfl
  | append_singleton t x ih =>
      rw [List.map_append, List.foldl_append, List.foldl_append, ih]
      simp only [List.map_cons, List.map_nil, List.foldl_cons, List.foldl_nil]
      by_cases hk' : x.id = k'
      · have hxk : ¬x.id = k := fun h => hne (hk' ▸ h ▸ rfl)
        rw [if_neg hxk]
      · by_cases hxk : x.id = k
        · rw [if_pos hxk,
            if_neg (show ¬({ x with value := v } : DNode).id = k' from hk'),
            if_neg hk']
        · rw [if_neg hxk]

/-! ## Error persistence and the shape of one propagation step -/

theorem passStep_err_some {acc : PassResult} (h : acc.err.isSome) (n : DNode) :
    passStep acc n = acc := by
  unfold passStep
  rw [if_pos h]

theorem foldl_passStep_err_some {acc : PassResult} (h : acc.err.isSome)
    (ns : List DNode) : ns.foldl passStep acc = acc := by
  induction ns with
  | nil => rfl
  | cons n t ih => rw [List.foldl_cons, passStep_err_some h n]; exact ih

/-- Every propagation step either leaves the accumulator unchanged, records
an error, or recomputes the node once, appending its id to the spy list. -/
theorem passStep_cases (acc : PassResult) (n : DNode) :
    passStep acc n = acc
    ∨ (∃ e, passStep acc n = { acc with err := some e })
    ∨ (∃ v', n.fn (processedArgs acc.st n.dependsOn n.deps) = .ok v'
        ∧ passStep acc n =
          ⟨⟨acc.st.snapshot, regSet acc.st.registry n.id v',
              updateNode acc.st.nodes n.id v'⟩,
            acc.recomputed ++ [n.id], none⟩) := by
  unfold passStep
  by_cases he : acc.err.isSome
  · exact Or.inl (if_pos he)
  · rw [if_neg he]
    by_cases hd : n.deps.any (dirtyDep acc.recomputed)
    · rw [if_pos hd]
      cases hfn : n.fn (processedArgs acc.st n.dependsOn n.deps) with
      | error e => exact Or.inr (Or.inl ⟨e, rfl⟩)
      | ok v' => exact Or.inr (Or.inr ⟨v', rfl, rfl⟩)
    · exact Or.inl (if_neg hd)

/-! ## A stable state is a fixed point of propagation -/

/-- Every node's body, recomputed on current dependency values at snapshot
`v`, reproduces the node's stored value. -/
def ConsistAt (v : JSVal) (st : WireState) : Prop :=
  ∀ n ∈ st.nodes,
    n.fn (processedArgs ⟨v, st.registry, st.nodes⟩ n.dependsOn n.deps)
      = .ok n.value

/-- Every node's Result Registry slot mirrors the node's value. -/
def RegWF (st : WireState) : Prop :=
  ∀ n ∈ st.nodes, RegHas st.registry n.id n.value

/-- A state is stable at snapshot `v`: recomputes reproduce stored values,
the registry mirrors the nodes, and node ids are unique. -/
def StableAt (v : JSVal) (st : WireState) : Prop :=
  ConsistAt v st ∧ RegWF st ∧ NodupIds st.nodes

theorem foldl_passStep_stable {v : JSVal} {st0 : WireState}
    (hst : StableAt v st0) (ns : List DNode) (hmem : ∀ n ∈ ns, n ∈ st0.nodes) :
    ∀ rec0 : List String,
      (ns.foldl passStep ⟨⟨v, st0.registry, st0.nodes⟩, rec0, none⟩).st
          = ⟨v, st0.registry, st0.nodes⟩
      ∧ (ns.foldl passStep ⟨⟨v, st0.registry, st0.nodes⟩, rec0, none⟩).err
          = none := by
  obtain ⟨hc, hr, hd⟩ := hst
  induction ns with
  | nil => intro rec0; exact ⟨rfl, rfl⟩
  | cons n t ih =>
      intro rec0
      have hn : n ∈ st0.nodes := hmem n (List.mem_cons_self n t)
      have hstep : ∀ rec' : List String,
          passStep ⟨⟨v, st0.registry, st0.nodes⟩, rec', none⟩ n
            = ⟨⟨v, st0.registry, st0.nodes⟩,
                if n.deps.any (dirtyDep rec') then rec' ++ [n.id] else rec',
                none⟩ := by
        intro rec'
        unfold passStep
        simp only [Option.isSome_none, Bool.false_eq_true, if_false]
        by_cases hdirty : n.deps.any (dirtyDep rec')
        · rw [if_pos hdirty, hc n hn, if_pos hdirty]
          show (⟨⟨v, regSet st0.registry n.id n.value,
              updateNode st0.nodes n.id n.value⟩,
              rec' ++ [n.id], none⟩ : PassResult) = _
          rw [regSet_self (hr n hn),
            updateNode_self fun m hm hmid =>
              congrArg DNode.value (nodupIds_mem_eq hd hm hn hmid)]
        · rw [if_neg hdirty, if_neg hdirty]
      rw [List.foldl_cons, hstep rec0]
      by_cases hdirty : n.deps.any (dirtyDep rec0)
      · rw [if_pos hdirty]
        exact ih (fun m hm => hmem m (List.mem_cons_of_mem n hm)) _
      · rw [if_neg hdirty]
        exact ih (fun m hm => hmem m (List.mem_cons_of_mem n hm)) _

/-- When a propagation pass completes without throwing, the spy list of
recomputed ids is exactly the transitive dirty set, in wiring order. -/
theorem foldl_passStep_recomputed (ns : List DNode) :
    ∀ acc : PassResult, acc.err = none → (ns.foldl passStep acc).err = none →
      (ns.foldl passStep acc).recomputed = transDirty ns acc.recomputed := by
  induction ns with
  | nil => intro acc _ _; rfl
  | cons n t ih =>
      intro acc hacc hfin
      rw [List.foldl_cons] at hfin ⊢
      unfold transDirty
      have hne : ¬acc.err.isSome := by rw [hacc]; simp
      by_cases hdirty : n.deps.any (dirtyDep acc.recomputed)
      · cases hfn : n.fn (processedArgs acc.st n.dependsOn n.deps) with
        | error e =>
            exfalso
            have hstep : passStep acc n = { acc with err := some e } := by
              unfold passStep
              rw [if_neg hne, if_pos hdirty, hfn]
            rw [hstep, foldl_passStep_err_some (by simp) t] at hfin
            simp at hfin
        | ok v' =>
            have hstep : passStep acc n
                = ⟨⟨acc.st.snapshot, regSet acc.st.registry n.id v',
                    updateNode acc.st.nodes n.id v'⟩,
                  acc.recomputed ++ [n.id], none⟩ := by
              unfold passStep
              rw [if_neg hne, if_pos hdirty, hfn]
            rw [hstep] at hfin ⊢
            rw [if_pos hdirty]
            exact ih _ rfl hfin
      · have hstep : passStep acc n = acc := by
          unfold passStep
          rw [if_neg hne, if_neg hdirty]
        rw [hstep] at hfin ⊢
        rw [if_neg hdirty]
        exact ih _ hacc hfin

/-- The spy list only ever grows by node ids, as a sublist in wiring
order. -/
theorem foldl_passStep_sublist (ns : List DNode) :
    ∀ acc : PassResult, ∃ t, (ns.foldl passStep acc).recomputed
        = acc.recomputed ++ t ∧ t.Sublist (ns.map DNode.id) := by
  induction ns with
  | nil => intro acc; exact ⟨[], by simp⟩
  | cons n t ih =>
      intro acc
      rw [List.foldl_cons]
      rcases passStep_cases acc n with h | ⟨e, h⟩ | ⟨v', -, h⟩ <;> rw [h]
      · obtain ⟨u, hu, hsub⟩ := ih acc
        exact ⟨u, hu, hsub.cons n.id⟩
      · obtain ⟨u, hu, hsub⟩ := ih { acc with err := some e }
        exact ⟨u, hu, hsub.cons n.id⟩
      · obtain ⟨u, hu, hsub⟩ := ih
          ⟨⟨acc.st.snapshot, regSet acc.st.registry n.id v',
              updateNode acc.st.nodes n.id v'⟩, acc.recomputed ++ [n.id], none⟩
        refine ⟨n.id :: u, ?_, hsub.cons₂ n.id⟩
        rw [hu, List.append_assoc]
        rfl

/-! ## Dependency well-formedness -/

/-- Every dependency source is either the snapshot store or a live node
built earlier (never a registry-slot fallback). -/
def DepsBack (built : List String) (deps : List DepSource) : Prop :=
  ∀ d ∈ deps, match d with
    | DepSource.stateStore => True
    | DepSource.derivedNode k => k ∈ built
    | DepSource.calcStore _ => False

/-- The node list is in dependency order relative to the already-built
ids: each node's sources point only backwards, and ids are fresh. -/
def NodesWF : List String → List DNode → Prop
  | _, [] => True
  | built, n :: rest =>
      DepsBack built n.deps ∧ n.id ∉ built ∧ NodesWF (built ++ [n.id]) rest

/-- The declaration-order contract the engine documents for callers: every
calculation reference points at a definition earlier in the list, and ids
are unique. -/
def OrderedDefs : List String → List CalcDef → Prop
  | _, [] => True
  | built, d :: rest =>
      (∀ p ∈ d.dependsOn, jsStartsWith p "calculations." = true →
          ((jsSplit p '.').getD 1 "") ∈ built)
      ∧ d.id ∉ built
      ∧ OrderedDefs (built ++ [d.id]) rest

theorem depsBack_mono {b b' : List String} {deps : List DepSource}
    (hsub : ∀ k ∈ b, k ∈ b') (h : DepsBack b deps) : DepsBack b' deps := by
  intro d hd
  have := h d hd
  cases d with
  | stateStore => trivial
  | derivedNode k => exact hsub k this
  | calcStore k => exact this

theorem nodesWF_ids_notin {b : List String} {ns : List DNode}
    (h : NodesWF b ns) : ∀ n ∈ ns, n.id ∉ b := by
  induction ns generalizing b with
  | nil => intro n hn; cases hn
  | cons a t ih =>
      obtain ⟨-, ha, ht⟩ := h
      intro n hn
      rcases List.mem_cons.1 hn with rfl | hn'
      · exact ha
      · intro hb
        exact ih ht n hn' (List.mem_append.2 (Or.inl hb))

theorem nodesWF_nodup {b : List String} {ns : List DNode}
    (h : NodesWF b ns) : NodupIds ns := by
  induction ns generalizing b with
  | nil => exact List.nodup_nil
  | cons a t ih =>
      obtain ⟨-, -, ht⟩ := h
      refine List.nodup_cons.2 ⟨?_, ih ht⟩
      intro hmem
      obtain ⟨n, hn, hnid⟩ := List.mem_map.1 hmem
      exact nodesWF_ids_notin ht n hn (List.mem_append.2 (Or.inr (by simp [hnid])))

theorem buildDeps_depsBack {built : List String} {dOn : List String}
    (h : ∀ p ∈ dOn, jsStartsWith p "calculations." = true →
        ((jsSplit p '.').getD 1 "") ∈ built) :
    DepsBack built (buildDeps built dOn) := by
  intro d hd
  obtain ⟨p, hp, hbp⟩ := List.mem_map.1 hd
  unfold bindPath at hbp
  by_cases hst : jsStartsWith p "calculations." = true
  · rw [if_pos hst] at hbp
    have hkey := h p hp hst
    rw [if_pos (List.elem_iff.2 hkey)] at hbp
    rw [← hbp]
    exact hkey
  · rw [if_neg hst] at hbp
    rw [← hbp]
    trivial

theorem nodesWF_append_elem {b : List String} {ns : List DNode} {x : DNode}
    (h : NodesWF b ns) (hdb : DepsBack (b ++ ns.map DNode.id) x.deps)
    (hid : x.id ∉ b ++ ns.map DNode.id) : NodesWF b (ns ++ [x]) := by
  induction ns generalizing b with
  | nil =>
      refine ⟨?_, ?_, trivial⟩
      · simpa using hdb
      · simpa using hid
  | cons a t ih =>
      obtain ⟨hda, hia, ht⟩ := h
      refine ⟨hda, hia, ih ht ?_ ?_⟩
      · refine depsBack_mono (fun k hk => ?_) hdb
        simp only [List.map_cons, List.append_assoc] at hk ⊢
        simpa using hk
      · intro hmem
        apply hid
        simp only [List.map_cons, List.append_assoc] at hmem ⊢
        simpa using hmem

/-! ## Wiring-step case analysis and error persistence -/

theorem wireStep_err_some {acc : WireOutcome} (h : acc.err.isSome)
    (d : CalcDef) : wireStep acc d = acc := by
  unfold wireStep
  rw [if_pos h]

theorem foldl_wireStep_err_some {acc : WireOutcome} (h : acc.err.isSome)
    (defs : List CalcDef) : defs.foldl wireStep acc = acc := by
  induction defs with
  | nil => rfl
  | cons d t ih => rw [List.foldl_cons, wireStep_err_some h d]; exact ih

theorem wireStepV1_err_some {acc : WireOutcome} (h : acc.err.isSome)
    (d : CalcDef) : wireStepV1 acc d = acc := by
  unfold wireStepV1
  rw [if_pos h]

theorem foldl_wireStepV1_err_some {acc : WireOutcome} (h : acc.err.isSome)
    (defs : List CalcDef) : defs.foldl wireStepV1 acc = acc := by
  induction defs with
  | nil => rfl
  | cons d t ih => rw [List.foldl_cons, wireStepV1_err_some h d]; exact ih

/-- One wiring iteration, when no earlier error is pending, either throws
(compilation or first computation) or mounts exactly one node and seeds its
slot. -/
theorem wireStep_cases (acc : WireOutcome) (d : CalcDef)
    (h : acc.err = none) :
    (∃ e, wireStep acc d = { acc with err := some e })
    ∨ (∃ fn v, compileOf d = .ok fn
        ∧ fn (processedArgs acc.st d.dependsOn
            (buildDeps (acc.st.nodes.map DNode.id) d.dependsOn)) = .ok v
        ∧ wireStep acc d =
          ⟨⟨acc.st.snapshot, regSet acc.st.registry d.id v,
              acc.st.nodes ++
                [⟨d.id, d.dependsOn,
                  buildDeps (acc.st.nodes.map DNode.id) d.dependsOn, fn, v⟩]⟩,
            acc.unsubs + 1, acc.mounted ++ [d.id], none⟩) := by
  have hne : ¬acc.err.isSome := by rw [h]; simp
  unfold wireStep
  rw [if_neg hne]
  cases hc : compileOf d with
  | error e => exact Or.inl ⟨e, rfl⟩
  | ok fn =>
      dsimp only
      cases hfn : fn (processedArgs acc.st d.dependsOn
          (buildDeps (acc.st.nodes.map DNode.id) d.dependsOn)) with
      | error e => exact Or.inl ⟨e, rfl⟩
      | ok v => exact Or.inr ⟨fn, v, rfl, hfn, rfl⟩

/-- The extracted arguments only depend on the current values of the
dependency sources. -/
theorem processedArgs_congr {st st' : WireState} (dOn : List String)
    (deps : List DepSource)
    (h : ∀ s ∈ deps, depCurrVal st' s = depCurrVal st s) :
    processedArgs st' dOn deps = processedArgs st dOn deps := by
  unfold processedArgs
  refine List.map_congr_left fun pd hpd => ?_
  have hs : pd.2 ∈ deps := (List.of_mem_zip hpd).2
  rw [h pd.2 hs]

/-! ## The wiring loop establishes a stable state (Lemma A) -/

theorem wire_loop_stable (defs : List CalcDef) :
    ∀ (acc : WireOutcome) (built : List String),
      OrderedDefs built defs →
      acc.err = none →
      acc.st.nodes.map DNode.id = built →
      NodesWF [] acc.st.nodes →
      (∀ m ∈ acc.st.nodes,
        m.fn (processedArgs acc.st m.dependsOn m.deps) = .ok m.value
        ∧ RegHas acc.st.registry m.id m.value
        ∧ DepsBack built m.deps) →
      (defs.foldl wireStep acc).err = none →
      (defs.foldl wireStep acc).st.snapshot = acc.st.snapshot
      ∧ NodesWF [] (defs.foldl wireStep acc).st.nodes
      ∧ (∀ m ∈ (defs.foldl wireStep acc).st.nodes,
          m.fn (processedArgs (defs.foldl wireStep acc).st m.dependsOn m.deps)
            = .ok m.value
          ∧ RegHas (defs.foldl wireStep acc).st.registry m.id m.value) := by
  induction defs with
  | nil =>
      intro acc built _ _ _ hwf hinv _
      exact ⟨rfl, hwf, fun m hm => ⟨(hinv m hm).1, (hinv m hm).2.1⟩⟩
  | cons d t ih =>
      intro acc built hord herr hids hwf hinv hfin
      obtain ⟨hdeps, hid, hord'⟩ := hord
      rw [List.foldl_cons] at hfin ⊢
      rcases wireStep_cases acc d herr with ⟨e, hstep⟩ | ⟨fn, v, -, hfn, hstep⟩
      · exfalso
        rw [hstep, foldl_wireStep_err_some (by simp) t] at hfin
        simp at hfin
      · rw [hids] at hfn hstep
        set node : DNode := ⟨d.id, d.dependsOn, buildDeps built d.dependsOn, fn, v⟩
        have hnotin : ∀ k ∈ built, node.id ≠ k := by
          intro k hk hkid
          apply hid
          rw [show d.id = k from hkid]
          exact hk
        have hvals : ∀ (m : DNode), DepsBack built m.deps → ∀ s ∈ m.deps,
            depCurrVal ⟨acc.st.snapshot, regSet acc.st.registry d.id v,
              acc.st.nodes ++ [node]⟩ s = depCurrVal acc.st s := by
          intro m hdb s hs
          have hbk := hdb s hs
          cases s with
          | stateStore => rfl
          | derivedNode k =>
              have hkb : k ∈ built := hbk
              simp only [depCurrVal]
              rw [findNode_append_one, if_neg (hnotin k hkb)]
          | calcStore k => exact (hbk : False).elim
        have hdbnode : DepsBack built node.deps := buildDeps_depsBack hdeps
        refine ?_
        have hout := ih
          ⟨⟨acc.st.snapshot, regSet acc.st.registry d.id v,
              acc.st.nodes ++ [node]⟩,
            acc.unsubs + 1, acc.mounted ++ [d.id], none⟩
          (built ++ [d.id]) hord' rfl
          (by simp [hids])
          (nodesWF_append_elem hwf (by simpa [hids] using hdbnode)
            (by simpa [hids] using hid))
          ?_ (hstep ▸ hfin)
        · rw [hstep]
          exact ⟨hout.1, hout.2.1, hout.2.2⟩
        · intro m hm
          rcases List.mem_append.1 hm with hmem | hmem
          · obtain ⟨hc, hr, hdb⟩ := hinv m hmem
            refine ⟨?_, ?_, depsBack_mono (fun k hk => List.mem_append.2 (Or.inl hk)) hdb⟩
            · rw [processedArgs_congr m.dependsOn m.deps (hvals m hdb)]
              exact hc
            · refine RegHas_regSet_ne hr ?_
              intro hmid
              apply hid
              rw [← hmid, ← hids]
              exact List.mem_map_of_mem DNode.id hmem
          · rcases List.mem_singleton.1 hmem with rfl
            refine ⟨?_, regSet_RegHas _ _ _,
              depsBack_mono (fun k hk => List.mem_append.2 (Or.inl hk)) hdbnode⟩
            rw [processedArgs_congr node.dependsOn node.deps (hvals node hdbnode)]
            exact hfn

/-- Under the documented declaration-order contract, a wiring pass that
returns (does not throw) leaves a stable, well-formed engine state. -/
theorem wire_stable {snap : JSVal} {defs : List CalcDef}
    (hord : OrderedDefs [] defs)
    (herr : (wireCalculations snap defs).err = none) :
    (wireCalculations snap defs).st.snapshot = snap
    ∧ NodesWF [] (wireCalculations snap defs).st.nodes
    ∧ StableAt snap (wireCalculations snap defs).st := by
  have h := wire_loop_stable defs ⟨⟨snap, seedRegistry defs, []⟩, 0, [], none⟩
    [] hord rfl rfl trivial (by intro m hm; cases hm) herr
  obtain ⟨hsnap, hwf, hinv⟩ := h
  have hsnap' : (wireCalculations snap defs).st.snapshot = snap := hsnap
  have heta : (⟨snap, (wireCalculations snap defs).st.registry,
      (wireCalculations snap defs).st.nodes⟩ : WireState)
      = (wireCalculations snap defs).st := by
    conv_lhs => enter [1]; rw [← hsnap']
  refine ⟨hsnap', hwf, ?_, fun m hm => (hinv m hm).2, nodesWF_nodup hwf⟩
  intro n hn
  have hc := (hinv n hn).1
  show n.fn (processedArgs ⟨snap, (wireCalculations snap defs).st.registry,
      (wireCalculations snap defs).st.nodes⟩ n.dependsOn n.deps) = .ok n.value
  rw [heta]
  exact hc

/-! ## A propagation pass re-establishes stability at the new snapshot
(Lemma B) -/

/-- The loop invariant of one propagation pass: `S` is the unprocessed
suffix of the wired node list, `built` the ids of the processed prefix. -/
structure PassInv (v : JSVal) (st0 : WireState) (S : List DNode)
    (built : List String) (acc : PassResult) : Prop where
  err : acc.err = none
  snap : acc.st.snapshot = v
  ids : acc.st.nodes.map DNode.id = st0.nodes.map DNode.id
  wf : NodesWF built S
  suffix : ∀ n ∈ S, n ∈ acc.st.nodes ∧ RegHas acc.st.registry n.id n.value
      ∧ n ∈ st0.nodes
  stale : ∀ k, k ∉ acc.recomputed →
      findNode acc.st.nodes k = findNode st0.nodes k
  done : ∀ m ∈ acc.st.nodes, m.id ∉ S.map DNode.id →
      m.fn (processedArgs acc.st m.dependsOn m.deps) = .ok m.value
      ∧ RegHas acc.st.registry m.id m.value
      ∧ DepsBack built m.deps

theorem pass_loop_stable {v : JSVal} {st0 : WireState}
    (hnodup : NodupIds st0.nodes) (hcons : ConsistAt st0.snapshot st0)
    (S : List DNode) :
    ∀ (built : List String) (acc : PassResult),
      PassInv v st0 S built acc →
      (S.foldl passStep acc).err = none →
      (∀ m ∈ (S.foldl passStep acc).st.nodes,
        m.fn (processedArgs (S.foldl passStep acc).st m.dependsOn m.deps)
            = .ok m.value
        ∧ RegHas (S.foldl passStep acc).st.registry m.id m.value)
      ∧ (S.foldl passStep acc).st.snapshot = v
      ∧ (S.foldl passStep acc).st.nodes.map DNode.id
          = st0.nodes.map DNode.id := by
  induction S with
  | nil =>
      intro built acc inv _
      exact ⟨fun m hm => ⟨(inv.done m hm (by simp)).1, (inv.done m hm (by simp)).2.1⟩,
        inv.snap, inv.ids⟩
  | cons n T ih =>
      intro built acc inv hfin
      obtain ⟨hDB, hnid, hWFT⟩ := inv.wf
      obtain ⟨hnmem, hnreg, hn0⟩ := inv.suffix n (List.mem_cons_self n T)
      have hNodupAcc : NodupIds acc.st.nodes := by
        unfold NodupIds
        rw [inv.ids]
        exact hnodup
      have hTnotid : ∀ m ∈ T, m.id ≠ n.id := by
        intro m hm hmn
        exact nodesWF_ids_notin hWFT m hm (List.mem_append.2 (Or.inr (by simp [hmn])))
      have herrne : ¬acc.err.isSome := by rw [inv.err]; simp
      rw [List.foldl_cons] at hfin ⊢
      by_cases hd : n.deps.any (dirtyDep acc.recomputed) = true
      · cases hfn : n.fn (processedArgs acc.st n.dependsOn n.deps) with
        | error e =>
            exfalso
            have hstep : passStep acc n = { acc with err := some e } := by
              unfold passStep
              rw [if_neg herrne, if_pos hd, hfn]
            rw [hstep, foldl_passStep_err_some (by simp) T] at hfin
            simp at hfin
        | ok v' =>
            have hstep : passStep acc n
                = ⟨⟨acc.st.snapshot, regSet acc.st.registry n.id v',
                    updateNode acc.st.nodes n.id v'⟩,
                  acc.recomputed ++ [n.id], none⟩ := by
              unfold passStep
              rw [if_neg herrne, if_pos hd, hfn]
            rw [hstep] at hfin ⊢
            have hdval : ∀ s ∈ n.deps,
                depCurrVal ⟨acc.st.snapshot, regSet acc.st.registry n.id v',
                  updateNode acc.st.nodes n.id v'⟩ s = depCurrVal acc.st s := by
              intro s hs
              have hbk := hDB s hs
              cases s with
              | stateStore => rfl
              | derivedNode k =>
                  have hkb : k ∈ built := hbk
                  have hkn : k ≠ n.id := fun hk => hnid (hk ▸ hkb)
                  simp only [depCurrVal]
                  rw [findNode_updateNode_ne _ _ hkn]
              | calcStore k => exact (hbk : False).elim
            refine ih (built ++ [n.id])
              ⟨⟨acc.st.snapshot, regSet acc.st.registry n.id v',
                  updateNode acc.st.nodes n.id v'⟩,
                acc.recomputed ++ [n.id], none⟩
              ⟨rfl, inv.snap, by rw [updateNode_map_id]; exact inv.ids, hWFT,
                ?_, ?_, ?_⟩ hfin
            · intro m hm
              obtain ⟨hma, hmr, hm0⟩ := inv.suffix m (List.mem_cons_of_mem n hm)
              exact ⟨mem_updateNode_of_ne hma (hTnotid m hm),
                RegHas_regSet_ne hmr (hTnotid m hm), hm0⟩
            · intro k hk
              have hk1 : k ∉ acc.recomputed := fun h =>
                hk (List.mem_append.2 (Or.inl h))
              have hk2 : k ≠ n.id := fun h =>
                hk (List.mem_append.2 (Or.inr (by simp [h])))
              rw [findNode_updateNode_ne _ _ hk2]
              exact inv.stale k hk1
            · intro m' hm' hm'T
              obtain ⟨m₀, hm₀, hf⟩ := List.mem_map.1 hm'
              by_cases hm₀n : m₀.id = n.id
              · have hm₀eq : m₀ = n := nodupIds_mem_eq hNodupAcc hm₀ hnmem hm₀n
                subst hm₀eq
                rw [if_pos rfl] at hf
                subst hf
                refine ⟨?_, regSet_RegHas _ _ _,
                  depsBack_mono (fun k hk => List.mem_append.2 (Or.inl hk)) hDB⟩
                show m₀.fn (processedArgs _ m₀.dependsOn m₀.deps) = .ok v'
                rw [processedArgs_congr m₀.dependsOn m₀.deps hdval]
                exact hfn
              · rw [if_neg hm₀n] at hf
                subst hf
                have hm₀T : m₀.id ∉ (n :: T).map DNode.id := by
                  simp only [List.map_cons, List.mem_cons]
                  rintro (h | h)
                  · exact hm₀n (by rw [h])
                  · exact hm'T h
                obtain ⟨hc, hr, hdb⟩ := inv.done m₀ hm₀ hm₀T
                refine ⟨?_, RegHas_regSet_ne hr hm₀n,
                  depsBack_mono (fun k hk => List.mem_append.2 (Or.inl hk)) hdb⟩
                have hdval' : ∀ s ∈ m₀.deps,
                    depCurrVal ⟨acc.st.snapshot, regSet acc.st.registry n.id v',
                      updateNode acc.st.nodes n.id v'⟩ s = depCurrVal acc.st s := by
                  intro s hs
                  have hbk := hdb s hs
                  cases s with
                  | stateStore => rfl
                  | derivedNode k =>
                      have hkb : k ∈ built := hbk
                      have hkn : k ≠ n.id := fun hk => hnid (hk ▸ hkb)
                      simp only [depCurrVal]
                      rw [findNode_updateNode_ne _ _ hkn]
                  | calcStore k => exact (hbk : False).elim
                rw [processedArgs_congr m₀.dependsOn m₀.deps hdval']
                exact hc
      · have hdf : n.deps.any (dirtyDep acc.recomputed) = false :=
          Bool.eq_false_iff.2 hd
        have hstep : passStep acc n = acc := by
          unfold passStep
          rw [if_neg herrne, if_neg hd]
        rw [hstep] at hfin ⊢
        refine ih (built ++ [n.id]) acc
          ⟨inv.err, inv.snap, inv.ids, hWFT, ?_, inv.stale, ?_⟩ hfin
        · intro m hm
          exact inv.suffix m (List.mem_cons_of_mem n hm)
        · intro m hm hmT
          by_cases hmn : m.id = n.id
          · have hmeq : m = n := nodupIds_mem_eq hNodupAcc hm hnmem hmn
            subst hmeq
            refine ⟨?_, hnreg,
              depsBack_mono (fun k hk => List.mem_append.2 (Or.inl hk)) hDB⟩
            have hnostate : ∀ s ∈ m.deps,
                depCurrVal acc.st s
                  = depCurrVal ⟨st0.snapshot, st0.registry, st0.nodes⟩ s := by
              intro s hs
              have hdirtyf : dirtyDep acc.recomputed s = false := by
                have := List.any_eq_false.1 hdf s hs
                exact Bool.eq_false_iff.2 this
              have hbk := hDB s hs
              cases s with
              | stateStore => simp [dirtyDep] at hdirtyf
              | derivedNode k =>
                  have hknot : k ∉ acc.recomputed := by
                    intro hkmem
                    have : dirtyDep acc.recomputed (DepSource.derivedNode k)
                        = true := by
                      simp [dirtyDep]
                      exact hkmem
                    rw [this] at hdirtyf
                    cases hdirtyf
                  simp only [depCurrVal]
                  rw [inv.stale k hknot]
              | calcStore k => exact (hbk : False).elim
            rw [processedArgs_congr m.dependsOn m.deps hnostate]
            exact hcons m hn0
          · have hmnT : m.id ∉ (n :: T).map DNode.id := by
              simp only [List.map_cons, List.mem_cons]
              rintro (h | h)
              · exact hmn (by rw [h])
              · exact hmT h
            obtain ⟨hc, hr, hdb⟩ := inv.done m hm hmnT
            exact ⟨hc, hr,
              depsBack_mono (fun k hk => List.mem_append.2 (Or.inl hk)) hdb⟩

/-- A propagation pass that completes on a stable, well-formed state leaves
the state stable at the new snapshot. -/
theorem propagate_stable {st0 : WireState} {v : JSVal}
    (hwf : NodesWF [] st0.nodes) (hst : StableAt st0.snapshot st0)
    (herr : (propagate st0 v).err = none) :
    StableAt v (propagate st0 v).st := by
  obtain ⟨hcons, hreg, hnodup⟩ := hst
  have base : PassInv v st0 st0.nodes []
      ⟨⟨v, st0.registry, st0.nodes⟩, [], none⟩ :=
    { err := rfl, snap := rfl, ids := rfl, wf := hwf,
      suffix := fun n hn => ⟨hn, hreg n hn, hn⟩,
      stale := fun _ _ => rfl,
      done := fun m hm hmid =>
        absurd (List.mem_map_of_mem DNode.id hm) hmid }
  obtain ⟨hinv, hsnap, hids⟩ :=
    pass_loop_stable hnodup hcons st0.nodes [] _ base herr
  set out : PassResult :=
    List.foldl passStep ⟨⟨v, st0.registry, st0.nodes⟩, [], none⟩ st0.nodes
    with hout
  have heta : (⟨v, out.st.registry, out.st.nodes⟩ : WireState) = out.st := by
    conv_lhs => enter [1]; rw [← hsnap]
  have hgoal : StableAt v out.st := by
    refine ⟨?_, fun m hm => (hinv m hm).2, ?_⟩
    · intro n hn
      have hc := (hinv n hn).1
      show n.fn (processedArgs ⟨v, out.st.registry, out.st.nodes⟩
          n.dependsOn n.deps) = .ok n.value
      rw [heta]
      exact hc
    · unfold NodupIds
      rw [hids]
      exact hnodup
  exact hgoal

/-- Replaying the same snapshot into a stable state recomputes but leaves
the whole state unchanged, and the spy list is the transitive dirty set in
wiring order. -/
theorem propagate_on_stable {st : WireState} {v : JSVal}
    (hstv : StableAt v st) :
    (propagate st v).st = ⟨v, st.registry, st.nodes⟩
    ∧ (propagate st v).err = none
    ∧ (propagate st v).recomputed = transDirty st.nodes []
    ∧ (propagate st v).recomputed.Sublist (st.nodes.map DNode.id) := by
  obtain ⟨hfix, herr⟩ := foldl_passStep_stable hstv st.nodes (fun _ hn => hn) []
  refine ⟨hfix, herr, foldl_passStep_recomputed st.nodes _ rfl herr, ?_⟩
  obtain ⟨t, ht, hsub⟩ := foldl_passStep_sublist st.nodes
    ⟨⟨v, st.registry, st.nodes⟩, [], none⟩
  show (propagate st v).recomputed.Sublist _
  rw [show (propagate st v).recomputed = [] ++ t from ht]
  simpa using hsub

/-! ## Comparing the two wiring variants -/

theorem buildDeps_noref {dOn : List String}
    (h : ∀ p ∈ dOn, jsStartsWith p "calculations." = false) (b : List String) :
    buildDepsV1 dOn = buildDeps b dOn
    ∧ ∀ s ∈ buildDepsV1 dOn, s = DepSource.stateStore := by
  constructor
  · refine List.map_congr_left fun p hp => ?_
    unfold bindPathV1 bindPath
    rw [if_neg (by simp [h p hp]), if_neg (by simp [h p hp])]
  · intro s hs
    obtain ⟨p, hp, hbp⟩ := List.mem_map.1 hs
    unfold bindPathV1 at hbp
    rw [if_neg (by simp [h p hp])] at hbp
    exact hbp.symm

theorem processedArgs_allState {st st' : WireState} (dOn : List String)
    {deps : List DepSource} (h : ∀ s ∈ deps, s = DepSource.stateStore)
    (hsnap : st'.snapshot = st.snapshot) :
    processedArgs st' dOn deps = processedArgs st dOn deps := by
  refine processedArgs_congr dOn deps fun s hs => ?_
  rw [h s hs]
  exact hsnap

theorem finalSeed_congr {ns ns' : List DNode} (ps : List CalcDef)
    (h : ∀ d ∈ ps, findNode ns' d.id = findNode ns d.id) :
    ∀ r, finalSeed ns' ps r = finalSeed ns ps r := by
  induction ps with
  | nil => intro r; rfl
  | cons d t ih =>
      intro r
      unfold finalSeed at ih ⊢
      rw [List.foldl_cons, List.foldl_cons, h d (List.mem_cons_self d t)]
      exact ih (fun e he => h e (List.mem_cons_of_mem d he)) _

theorem finalSeed_append_one (ns : List DNode) (ps : List CalcDef)
    (d : CalcDef) (r : List (String × JSVal)) :
    finalSeed ns (ps ++ [d]) r
      = regSet (finalSeed ns ps r) d.id
          (((findNode ns d.id).map DNode.value).getD .undef) := by
  unfold finalSeed
  rw [List.foldl_append]
  rfl

/-- For a definition list with unique ids and no calculation-reference
dependency, the two wiring loops step in lock-step: same nodes, same
teardown handles, same mounted list, no error, and the second variant's
incrementally-seeded registry equals the first variant's final pass applied
to the current nodes. -/
theorem v1v2_loop (defs : List CalcDef) :
    ∀ (acc1 acc2 : WireOutcome) (processed : List CalcDef)
      (seed : List (String × JSVal)),
      (∀ d ∈ defs, ∀ p ∈ d.dependsOn,
          jsStartsWith p "calculations." = false) →
      (∀ d ∈ defs, ∀ e ∈ processed, d.id ≠ e.id) →
      (defs.map CalcDef.id).Nodup →
      acc1.err = none → acc2.err = none →
      acc1.st.snapshot = acc2.st.snapshot →
      acc1.st.nodes = acc2.st.nodes →
      acc1.unsubs = acc2.unsubs →
      acc1.mounted = acc2.mounted →
      acc1.st.registry = seed →
      acc2.st.registry = finalSeed acc1.st.nodes processed seed →
      (defs.foldl wireStepV1 acc1).err = none →
      (defs.foldl wireStepV1 acc1).st.snapshot
          = (defs.foldl wireStep acc2).st.snapshot
      ∧ (defs.foldl wireStepV1 acc1).st.nodes
          = (defs.foldl wireStep acc2).st.nodes
      ∧ (defs.foldl wireStepV1 acc1).unsubs
          = (defs.foldl wireStep acc2).unsubs
      ∧ (defs.foldl wireStepV1 acc1).mounted
          = (defs.foldl wireStep acc2).mounted
      ∧ (defs.foldl wireStepV1 acc1).err = none
      ∧ (defs.foldl wireStep acc2).err = none
      ∧ (defs.foldl wireStepV1 acc1).st.registry = seed
      ∧ (defs.foldl wireStep acc2).st.registry
          = finalSeed (defs.foldl wireStepV1 acc1).st.nodes
              (processed ++ defs) seed := by
  induction defs with
  | nil =>
      intro acc1 acc2 processed seed _ _ _ h1 h2 hsnap hnodes hu hm hr1 hr2 _
      simp only [List.foldl_nil, List.append_nil]
      exact ⟨hsnap, hnodes, hu, hm, h1, h2, hr1, hr2⟩
  | cons d t ih =>
      intro acc1 acc2 processed seed hnoref hfresh hnodup h1 h2 hsnap hnodes hu
        hm hr1 hr2 hfin
      have h1ne : ¬acc1.err.isSome := by rw [h1]; simp
      have h2ne : ¬acc2.err.isSome := by rw [h2]; simp
      simp only [List.foldl_cons] at hfin ⊢
      have hnrd : ∀ p ∈ d.dependsOn, jsStartsWith p "calculations." = false :=
        hnoref d (List.mem_cons_self d t)
      obtain ⟨hdeq, hdstate⟩ :=
        buildDeps_noref hnrd (acc2.st.nodes.map DNode.id)
      cases hc : compileOf d with
      | error e =>
          exfalso
          have hstep : wireStepV1 acc1 d = { acc1 with err := some e } := by
            unfold wireStepV1
            rw [if_neg h1ne, hc]
          rw [hstep, foldl_wireStepV1_err_some (by simp) t] at hfin
          simp at hfin
      | ok fn =>
          cases hfn : fn (processedArgs acc1.st d.dependsOn
              (buildDepsV1 d.dependsOn)) with
          | error e =>
              exfalso
              have hstep : wireStepV1 acc1 d = { acc1 with err := some e } := by
                unfold wireStepV1
                rw [if_neg h1ne, hc]
                dsimp only
                rw [hfn]
              rw [hstep, foldl_wireStepV1_err_some (by simp) t] at hfin
              simp at hfin
          | ok v =>
              have hargs2 : fn (processedArgs acc2.st d.dependsOn
                  (buildDeps (acc2.st.nodes.map DNode.id) d.dependsOn))
                  = .ok v := by
                rw [← hdeq, ← processedArgs_allState d.dependsOn hdstate hsnap]
                exact hfn
              have hstep1 : wireStepV1 acc1 d =
                  ⟨⟨acc1.st.snapshot, acc1.st.registry, acc1.st.nodes ++
                      [⟨d.id, d.dependsOn, buildDepsV1 d.dependsOn, fn, v⟩]⟩,
                    acc1.unsubs + 1, acc1.mounted ++ [d.id], none⟩ := by
                unfold wireStepV1
                rw [if_neg h1ne, hc]
                dsimp only
                rw [hfn]
              have hstep2 : wireStep acc2 d =
                  ⟨⟨acc2.st.snapshot, regSet acc2.st.registry d.id v,
                      acc2.st.nodes ++
                      [⟨d.id, d.dependsOn,
                        buildDeps (acc2.st.nodes.map DNode.id) d.dependsOn,
                        fn, v⟩]⟩,
                    acc2.unsubs + 1, acc2.mounted ++ [d.id], none⟩ := by
                unfold wireStep
                rw [if_neg h2ne, hc]
                dsimp only
                rw [hargs2]
              rw [hstep1] at hfin ⊢
              rw [hstep2]
              have hnode : (⟨d.id, d.dependsOn, buildDepsV1 d.dependsOn, fn, v⟩
                  : DNode) = ⟨d.id, d.dependsOn,
                    buildDeps (acc2.st.nodes.map DNode.id) d.dependsOn,
                    fn, v⟩ := by
                rw [hdeq]
              have hfresh' : ∀ e ∈ t, ∀ e' ∈ processed ++ [d], e.id ≠ e'.id := by
                intro e he e' he'
                rcases List.mem_append.1 he' with h' | h'
                · exact hfresh e (List.mem_cons_of_mem d he) e' h'
                · rcases List.mem_singleton.1 h' with rfl
                  intro heq
                  have := (List.nodup_cons.1 hnodup).1
                  exact this (heq ▸ List.mem_map_of_mem CalcDef.id he)
              have := ih
                ⟨⟨acc1.st.snapshot, acc1.st.registry, acc1.st.nodes ++
                    [⟨d.id, d.dependsOn, buildDepsV1 d.dependsOn, fn, v⟩]⟩,
                  acc1.unsubs + 1, acc1.mounted ++ [d.id], none⟩
                ⟨⟨acc2.st.snapshot, regSet acc2.st.registry d.id v,
                    acc2.st.nodes ++
                    [⟨d.id, d.dependsOn,
                      buildDeps (acc2.st.nodes.map DNode.id) d.dependsOn,
                      fn, v⟩]⟩,
                  acc2.unsubs + 1, acc2.mounted ++ [d.id], none⟩
                (processed ++ [d]) seed
                (fun e he => hnoref e (List.mem_cons_of_mem d he))
                hfresh' (List.nodup_cons.1 hnodup).2
                rfl rfl hsnap
                (by rw [hnodes, hnode]) (by rw [hu]) (by rw [hm]) hr1
                ?_ hfin
              · obtain ⟨c1, c2, c3, c4, c5, c6, c7, c8⟩ := this
                refine ⟨c1, c2, c3, c4, c5, c6, c7, ?_⟩
                rw [c8]
                congr 1
                rw [List.append_assoc]
                rfl
              · show regSet acc2.st.registry d.id v = _
                rw [hr2, finalSeed_append_one]
                have hfind : findNode (acc1.st.nodes ++
                    [⟨d.id, d.dependsOn, buildDepsV1 d.dependsOn, fn, v⟩])
                    d.id = some ⟨d.id, d.dependsOn, buildDepsV1 d.dependsOn,
                      fn, v⟩ := by
                  rw [findNode_append_one, if_pos rfl]
                rw [hfind]
                have hstable : finalSeed (acc1.st.nodes ++
                    [⟨d.id, d.dependsOn, buildDepsV1 d.dependsOn, fn, v⟩])
                    processed seed = finalSeed acc1.st.nodes processed seed := by
                  refine finalSeed_congr processed (fun e he => ?_) seed
                  rw [findNode_append_one,
                    if_neg (hfresh d (List.mem_cons_self d t) e he)]
                rw [hstable]
                rfl

theorem wire_unsubs_count (defs : List CalcDef) :
    ∀ acc : WireOutcome, acc.err = none →
      (defs.foldl wireStep acc).err = none →
      (defs.foldl wireStep acc).unsubs = acc.unsubs + defs.length := by
  induction defs with
  | nil => intro acc _ _; simp
  | cons d t ih =>
      intro acc herr hfin
      rw [List.foldl_cons] at hfin ⊢
      rcases wireStep_cases acc d herr with ⟨e, hstep⟩ | ⟨fn, v, -, -, hstep⟩
      · exfalso
        rw [hstep, foldl_wireStep_err_some (by simp) t] at hfin
        simp at hfin
      · rw [hstep] at hfin ⊢
        rw [ih _ rfl hfin]
        simp only [List.length_cons]
        omega

/-! ## Wired fixtures -/

/-- The §8 gravity scenario wired with the real `og` definition. -/
def gravityWired : WireOutcome := wireCalculations snapGravity [OG]

/-- The missing-fermentables scenario wired with the real `og`
definition. -/
def noFermsWired : WireOutcome := wireCalculations snapNoFerms [OG]

/-- The alcohol chain: wire `og`, `fg`, `abv` on the initial snapshot, then
replace the snapshot with the 1.060-OG recipe. -/
def alcoholPass : PassResult :=
  propagate (wireCalculations snapInitial [OG, FG, ABV]).st snapAlcohol

/-- One spied calculation wired on `snapPair`. -/
def spyWired : WireOutcome := wireCalculations snapPair [uDef]

/-- Replace the snapshot changing only `recipe.name`, which no calculation
depends on. -/
def spyPass : PassResult := propagate spyWired.st snapPairRenamed

/-- The two-calculation graph wired in dependency order. -/
def inOrderWired : WireOutcome := wireCalculations snapPair [uDef, dDef]

/-- The two-calculation graph wired out of dependency order. -/
def outOfOrderWired : WireOutcome := wireCalculations snapPair [dDef, uDef]

/-- The dependency-ordered graph wired with the first variant. -/
def v1Wired : WireOutcome := wireCalculationsV1 snapPair [uDef, dDef]

/-- A wiring pass whose middle definition fails to compile. -/
def failWired : WireOutcome :=
  wireCalculations snapPair [uDef, invalidDyn, dDef]

/-- A one-node engine state used to instantiate the propagation
theorems. -/
def spyState : WireState :=
  ⟨snapPair, [("u", .num 5)],
    [⟨"u", ["recipe.x"], [DepSource.stateStore], idFn, .num 5⟩]⟩

/-! ## Path-resolver lemmas (C3) -/

theorem resolveSegs_undef (segs : List String) :
    resolveSegs .undef segs = .undef := by
  induction segs with
  | nil => rfl
  | cons k t ih =>
      unfold resolveSegs at ih ⊢
      rw [List.foldl_cons]
      exact ih

theorem resolveSegsE_ok (segs : List String) :
    ∀ v, resolveSegsE v segs = .ok (resolveSegs v segs) := by
  induction segs with
  | nil => intro v; rfl
  | cons k t ih =>
      intro v
      show (if v.nullish then resolveSegsE .undef t
          else jsGetStrict v k >>= fun x => resolveSegsE x t)
        = .ok (resolveSegs v (k :: t))
      unfold resolveSegs
      rw [List.foldl_cons]
      by_cases hn : v.nullish
      · rw [if_pos hn, show jsGet v k = .undef from by
          unfold jsGet; rw [if_pos hn]]
        exact ih .undef
      · rw [if_neg hn, show jsGetStrict v k = .ok (jsGetCore v k) from by
            unfold jsGetStrict; rw [if_neg hn],
          show jsGet v k = jsGetCore v k from by unfold jsGet; rw [if_neg hn]]
        exact ih (jsGetCore v k)

/-- C3: path resolution splits the dotted path, folds one segment at a
time with the optional-chained accessor, never raises (the exception-aware
reading of the fold always returns `ok`), and once a segment is absent the
rest of the fold stays `undefined`; the wiring routine's argument
extraction applies exactly this fold to snapshot-path dependencies. -/
theorem path_resolver_total (snapshot : JSVal) (path : String) :
    resolveSegsE snapshot (jsSplit path '.')
        = .ok (resolveSegs snapshot (jsSplit path '.'))
    ∧ (∀ segs : List String, resolveSegs .undef segs = .undef)
    ∧ (∀ (st : WireState) (src : DepSource),
        jsStartsWith path "calculations." = false →
        processedArgs st [path] [src]
          = [resolveSegs (depCurrVal st src) (jsSplit path '.')]) := by
  refine ⟨resolveSegsE_ok _ snapshot, resolveSegs_undef, ?_⟩
  intro st src h
  unfold processedArgs
  simp [h]

/-- Witness for C3 at a concrete snapshot-path dependency. -/
theorem path_resolver_total_witness :
    jsStartsWith "recipe.x" "calculations." = false
    ∧ processedArgs ⟨snapPair, [], []⟩ ["recipe.x"] [DepSource.stateStore]
        = [resolveSegs (depCurrVal ⟨snapPair, [], []⟩ DepSource.stateStore)
            (jsSplit "recipe.x" '.')] :=
  ⟨by decide, (path_resolver_total snapPair "recipe.x").2.2
    ⟨snapPair, [], []⟩ .stateStore (by decide)⟩

/-! ## The gravity scenario (C6) -/

/-- C6 counterexample: on the §8 gravity snapshot the wired `og` slot holds
`165/158 ≈ 1.0443`, which is not the claimed `1 + (35·10·0.70)/5/1000 =
1.049`, and misses 1.049 by more than 0.004. -/
theorem og_gravity_scenario_counterexample :
    regGet gravityWired.st.registry "og" = some (.num (165/158))
    ∧ (165/158 : ℚ) ≠ 1 + 35 * 10 * (70/100) / 5 / 1000
    ∧ 4/1000 < |(165/158 : ℚ) - 1049/1000| :=
  ⟨someNumExt (by norm_num), by norm_num,
    by rw [lt_abs]; right; norm_num⟩

/-- C6 amended: the `og` calculation divides by the post-boil volume
`5 + 0.53`, yielding `1 + (35·10·0.70)/(5 + 0.53)/1000 ≈ 1.0443`. -/
theorem og_gravity_scenario_amended :
    regGet gravityWired.st.registry "og"
        = some (.num (1 + 35 * 10 * (70/100) / (5 + 53/100) / 1000))
    ∧ |(1 + 35 * 10 * (70/100) / (5 + 53/100) / 1000 : ℚ) - 10443/10000|
        < 1/1000 :=
  ⟨someNumExt (by norm_num), by rw [abs_lt]; constructor <;> norm_num⟩

/-! ## The missing-fermentables scenario (C7) -/

/-- C7 counterexample: with no fermentables array in the snapshot, the Path
Resolver hands the `og` calculation `undefined`, not an empty list. -/
theorem og_missing_fermentables_counterexample :
    resolveSegs snapNoFerms
        (jsSplit "recipe.ingredients.fermentable_additions" '.') = .undef
    ∧ JSVal.undef ≠ .arr [] :=
  ⟨rfl, fun h => nomatch h⟩

/-- C7 amended: the resolver yields `undefined` without throwing, the body
defaults internally (`fermentables || []`) and the wired `og` slot holds
the baseline `1`; calling the body directly on `undefined` also returns
`1` rather than raising. -/
theorem og_missing_fermentables_amended :
    resolveSegs snapNoFerms
        (jsSplit "recipe.ingredients.fermentable_additions" '.') = .undef
    ∧ noFermsWired.err = none
    ∧ regGet noFermsWired.st.registry "og" = some (.num 1)
    ∧ ogBody [.undef, .obj [("unit", .str "gal"), ("value", .num 5)],
        .obj [("unit", .str "%"), ("value", .num 70)]] = .ok (.num 1) :=
  ⟨rfl, rfl, someNumExt (by norm_num), okNumExt (by norm_num)⟩

/-! ## The OG divisor (C9) -/

theorem exc_bind_ok {α β : Type} (a : α) (f : α → Except String β) :
    (Except.ok a : Except String α) >>= f = f a := rfl

/-- C9: for any inputs on which the unit conversions succeed, the `og`
body divides the efficiency-adjusted gravity points by
`volumeToGallons(batchSize) + 0.53`, not by the batch volume itself; with
an empty fermentable list (and a nonzero post-boil volume, so the JS
division stays in the rational fragment) it returns exactly `1`. -/
theorem og_postboil_divisor (ferms : List JSVal) (batchSize efficiency : JSVal)
    (tg eff g : ℚ)
    (htg : totalGravityOf ferms = .ok tg)
    (heff : efficiencyValueOf efficiency = .ok eff)
    (hg : volumeToGallons batchSize = .ok g)
    (_hden : g + 53 / 100 ≠ 0) :
    ogBody [.arr ferms, batchSize, efficiency]
      = .ok (.num (1 + tg * eff / 100 / (g + 53 / 100) / 1000))
    ∧ (ferms = [] →
        ogBody [.arr ferms, batchSize, efficiency] = .ok (.num 1)) := by
  have h1 : ogBody [.arr ferms, batchSize, efficiency]
      = (efficiencyValueOf efficiency >>= fun eV =>
         totalGravityOf ferms >>= fun tG =>
         volumeToGallons batchSize >>= fun x =>
         pure (.num (1 + tG * eV / 100 / (x + 53 / 100) / 1000))) := rfl
  have hmain : ogBody [.arr ferms, batchSize, efficiency]
      = .ok (.num (1 + tg * eff / 100 / (g + 53 / 100) / 1000)) := by
    rw [h1, heff, exc_bind_ok, htg, exc_bind_ok, hg, exc_bind_ok]
    rfl
  refine ⟨hmain, fun hferms => ?_⟩
  subst hferms
  have htg0 : (Except.ok (0 : ℚ) : Except String ℚ) = .ok tg := by
    rw [← htg]
    rfl
  have : tg = 0 := by
    injection htg0 with h
    exact h.symm
  subst this
  rw [hmain]
  exact okNumExt (by simp)

/-- Witness for C9 at the empty fermentable list, a 5 gal batch and 70%
efficiency. -/
theorem og_postboil_divisor_witness :
    totalGravityOf [] = .ok 0
    ∧ volumeToGallons (.obj [("unit", .str "gal"), ("value", .num 5)])
        = .ok 5
    ∧ efficiencyValueOf (.obj [("unit", .str "%"), ("value", .num 70)])
        = .ok 70
    ∧ (5 + 53 / 100 : ℚ) ≠ 0
    ∧ ogBody [.arr [], .obj [("unit", .str "gal"), ("value", .num 5)],
        .obj [("unit", .str "%"), ("value", .num 70)]] = .ok (.num 1) :=
  ⟨rfl, rfl, rfl, by norm_num,
    (og_postboil_divisor [] (.obj [("unit", .str "gal"), ("value", .num 5)])
      (.obj [("unit", .str "%"), ("value", .num 70)]) 0 70 5 rfl rfl rfl
      (by norm_num)).2 rfl⟩

/-! ## The dependent alcohol chain (C5) -/

/-- C5: after one snapshot replacement on the wired `og → fg → abv` chain,
all three recompute once in wiring order; the same-tick values are exactly
`og = 1.060`, `fg = 1.015` and `abv = 189/32 ≈ 5.9`, and the registry's
`fg` and `abv` equal the bodies applied to the same tick's upstream values
(never a previous tick's). -/
theorem chained_freshness_scenario :
    alcoholPass.err = none
    ∧ alcoholPass.recomputed = ["og", "fg", "abv"]
    ∧ regGet alcoholPass.st.registry "og" = some (.num (53/50))
    ∧ regGet alcoholPass.st.registry "fg" = some (.num (203/200))
    ∧ regGet alcoholPass.st.registry "abv" = some (.num (189/32))
    ∧ fgBody [.num (53/50), resolveSegs snapAlcohol
        (jsSplit "recipe.ingredients.culture_additions" '.')]
        = .ok (.num (203/200))
    ∧ abvBody [.num (53/50), .num (203/200)] = .ok (.num (189/32))
    ∧ (53/50 : ℚ) = 1060/1000
    ∧ (203/200 : ℚ) = 1015/1000
    ∧ |(189/32 : ℚ) - 59/10| < 1/100 :=
  ⟨rfl, rfl, someNumExt (by norm_num), someNumExt (by norm_num),
    someNumExt (by norm_num), okNumExt (by norm_num), okNumExt (by norm_num),
    by norm_num, by norm_num, by rw [abs_lt]; constructor <;> norm_num⟩

/-! ## The dependency binder (C1) -/

/-- C1: a `calculations.` dependency binds the live node when the
referenced calculation was built earlier in the pass and falls back to the
Result Registry slot otherwise; a live binding reads the node's current
value, while on the out-of-order graph the fallback read the slot's frozen
seed (`undefined`) even though the live node's value was available. -/
theorem binder_live_node_or_registry_fallback :
    (∀ (builtIds : List String) (path : String),
        jsStartsWith path "calculations." = true →
        bindPath builtIds path =
          if builtIds.contains ((jsSplit path '.').getD 1 "")
          then .derivedNode ((jsSplit path '.').getD 1 "")
          else .calcStore ((jsSplit path '.').getD 1 ""))
    ∧ (∀ (st : WireState) (k : String) (n : DNode),
        findNode st.nodes k = some n →
        depCurrVal st (.derivedNode k) = n.value)
    ∧ regGet inOrderWired.st.registry "d" = some (.num 5)
    ∧ regGet outOfOrderWired.st.registry "d" = some .undef
    ∧ (findNode outOfOrderWired.st.nodes "u").map DNode.value
        = some (.num 5) := by
  refine ⟨?_, ?_, rfl, rfl, rfl⟩
  · intro builtIds path h
    unfold bindPath
    rw [if_pos h]
  · intro st k n h
    show ((findNode st.nodes k).map DNode.value).getD .undef = n.value
    rw [h]
    rfl

/-- Witness for C1: a backward reference binds the live node, a forward
reference binds the registry slot, and a live binding reads the node's
current value. -/
theorem binder_live_node_or_registry_fallback_witness :
    jsStartsWith "calculations.og" "calculations." = true
    ∧ bindPath ["og"] "calculations.og" = .derivedNode "og"
    ∧ bindPath [] "calculations.og" = .calcStore "og"
    ∧ depCurrVal spyState (.derivedNode "u") = .num 5 := by
  have h := binder_live_node_or_registry_fallback
  refine ⟨by decide, ?_, ?_, ?_⟩
  · rw [h.1 ["og"] "calculations.og" (by decide)]
    rfl
  · rw [h.1 [] "calculations.og" (by decide)]
    rfl
  · exact h.2.1 spyState "u" _ rfl

/-! ## Store-granular recomputation (C2) -/

/-- C2 counterexample: a snapshot replacement that changes only
`recipe.name` — a path in no calculation's dependency set (the resolved
dependency value is unchanged) — still triggers one recomputation of the
wired calculation's body, not zero; its Result Registry value is left
unchanged. -/
theorem spy_recompute_counterexample :
    resolveSegs snapPairRenamed (jsSplit "recipe.x" '.')
        = resolveSegs snapPair (jsSplit "recipe.x" '.')
    ∧ spyPass.recomputed = ["u"]
    ∧ spyPass.recomputed ≠ []
    ∧ spyPass.st.registry = spyWired.st.registry :=
  ⟨rfl, rfl, by rw [show spyPass.recomputed = ["u"] from rfl]; simp, rfl⟩

/-- C2 amended: in one propagation, the recomputed spy list is exactly the
transitive dirty set in wiring order (each node at most once, order of the
node list); and when the replacement leaves every node's resolved
dependency values unchanged, every Result Registry value is left unchanged
— but store-granular binding means such nodes still recompute once, not
zero times. -/
theorem propagation_once_in_order_registry_unchanged (st : WireState)
    (v : JSVal) (hstable : StableAt st.snapshot st)
    (hargs : ∀ n ∈ st.nodes,
        processedArgs ⟨v, st.registry, st.nodes⟩ n.dependsOn n.deps
          = processedArgs st n.dependsOn n.deps) :
    (propagate st v).st.registry = st.registry
    ∧ (propagate st v).recomputed = transDirty st.nodes []
    ∧ (propagate st v).recomputed.Sublist (st.nodes.map DNode.id) := by
  have hstv : StableAt v st := by
    obtain ⟨hc, hr, hn⟩ := hstable
    refine ⟨?_, hr, hn⟩
    intro n hn'
    rw [hargs n hn']
    exact hc n hn'
  obtain ⟨hfix, _, hrec, hsub⟩ := propagate_on_stable hstv
  exact ⟨by rw [hfix], hrec, hsub⟩

/-- Witness for C2 on a concrete one-node stable state. -/
theorem propagation_once_in_order_registry_unchanged_witness :
    StableAt spyState.snapshot spyState
    ∧ (propagate spyState snapPairRenamed).st.registry = spyState.registry
    ∧ (propagate spyState snapPairRenamed).recomputed
        = transDirty spyState.nodes [] := by
  have hstable : StableAt spyState.snapshot spyState := by
    refine ⟨?_, ?_, ?_⟩
    · intro n hn
      rcases List.mem_singleton.1 hn with rfl
      rfl
    · intro n hn
      rcases List.mem_singleton.1 hn with rfl
      refine ⟨rfl, ?_⟩
      intro p hp h
      rcases List.mem_singleton.1 hp with rfl
      rfl
    · exact List.nodup_singleton "u"
  have hargs : ∀ n ∈ spyState.nodes,
      processedArgs ⟨snapPairRenamed, spyState.registry, spyState.nodes⟩
          n.dependsOn n.deps
        = processedArgs spyState n.dependsOn n.deps := by
    intro n hn
    rcases List.mem_singleton.1 hn with rfl
    rfl
  have h := propagation_once_in_order_registry_unchanged spyState
    snapPairRenamed hstable hargs
  exact ⟨hstable, h.1, h.2.1⟩

/-! ## Fail-fast compilation (C4) -/

/-- C4 counterexample: an invalid textual definition after a valid one —
the wiring call throws, but the earlier definition's node was already
mounted, so it is not true that no node is mounted when `wire` throws. -/
theorem fail_fast_counterexample :
    failWired.err = some "SyntaxError: unexpected token"
    ∧ failWired.mounted = ["u"]
    ∧ failWired.mounted ≠ [] :=
  ⟨rfl, rfl, by rw [show failWired.mounted = ["u"] from rfl]; simp⟩

/-- C4 amended: a textual definition with invalid source makes the wiring
call throw at compilation time, before that definition's node (or any
later definition's node) is mounted; definitions after it are not
processed, while earlier definitions keep their already-mounted nodes (no
rollback). -/
theorem wire_fail_fast (snap : JSVal) (pre post : List CalcDef) (i : String)
    (dOn : List String) (msg : String)
    (hpre : (pre.foldl wireStep ⟨⟨snap,
        seedRegistry (pre ++ CalcDef.dynamic i dOn (.invalid msg) :: post),
        []⟩, 0, [], none⟩).err = none) :
    wireCalculations snap (pre ++ CalcDef.dynamic i dOn (.invalid msg) :: post)
      = { pre.foldl wireStep ⟨⟨snap,
            seedRegistry (pre ++ CalcDef.dynamic i dOn (.invalid msg) :: post),
            []⟩, 0, [], none⟩ with
          err := some s!"SyntaxError: {msg}" } := by
  unfold wireCalculations
  rw [List.foldl_append, List.foldl_cons]
  set acc := pre.foldl wireStep ⟨⟨snap,
      seedRegistry (pre ++ CalcDef.dynamic i dOn (.invalid msg) :: post),
      []⟩, 0, [], none⟩ with hacc
  clear hacc
  obtain ⟨st', u', m', e'⟩ := acc
  have he : e' = none := hpre
  subst he
  rw [show wireStep ⟨st', u', m', none⟩ (CalcDef.dynamic i dOn (.invalid msg))
      = ⟨st', u', m', some s!"SyntaxError: {msg}"⟩ from rfl,
    foldl_wireStep_err_some (by simp) post]

/-- Witness for C4: one valid definition, then the invalid one, then one
more — the pass throws with the earlier node mounted and the rest
aborted. -/
theorem wire_fail_fast_witness :
    ([uDef].foldl wireStep ⟨⟨snapPair,
        seedRegistry ([uDef] ++ CalcDef.dynamic "bad" ["recipe.x"]
          (.invalid "unexpected token") :: [dDef]), []⟩, 0, [], none⟩).err
        = none
    ∧ (wireCalculations snapPair ([uDef] ++ CalcDef.dynamic "bad"
        ["recipe.x"] (.invalid "unexpected token") :: [dDef])).err.isSome
        = true := by
  refine ⟨rfl, ?_⟩
  rw [wire_fail_fast snapPair [uDef] [dDef] "bad" ["recipe.x"]
    "unexpected token" rfl]
  rfl

/-! ## Determinism of repeated replacement (C8) -/

/-- C8: for a definition list satisfying the documented declaration-order
contract, wired without error, replacing the snapshot with the same value
twice in a row yields identical Result Registry contents after each
replacement (the second pass reproduces every value and writes nothing
new). -/
theorem registry_determinism_repeat (snap v : JSVal) (defs : List CalcDef)
    (hord : OrderedDefs [] defs)
    (herrw : (wireCalculations snap defs).err = none)
    (herrp : (propagate (wireCalculations snap defs).st v).err = none) :
    (propagate (propagate (wireCalculations snap defs).st v).st v).st.registry
        = (propagate (wireCalculations snap defs).st v).st.registry
    ∧ (propagate (propagate (wireCalculations snap defs).st v).st v).err
        = none := by
  obtain ⟨hsnap, hwf, hstable⟩ := wire_stable hord herrw
  have hstw : StableAt (wireCalculations snap defs).st.snapshot
      (wireCalculations snap defs).st := by
    rw [hsnap]
    exact hstable
  have hst1 := propagate_stable hwf hstw herrp
  obtain ⟨hfix, herr2, -, -⟩ := propagate_on_stable hst1
  exact ⟨by rw [hfix], herr2⟩

/-- Witness for C8 on the dependency-ordered two-calculation graph. -/
theorem registry_determinism_repeat_witness :
    OrderedDefs [] [uDef, dDef]
    ∧ (propagate (propagate (wireCalculations snapPair [uDef, dDef]).st
          snapPairRenamed).st snapPairRenamed).st.registry
        = (propagate (wireCalculations snapPair [uDef, dDef]).st
            snapPairRenamed).st.registry := by
  have hord : OrderedDefs [] [uDef, dDef] := by
    refine ⟨?_, by simp, ?_, by decide, trivial⟩
    · intro p hp hs
      rcases List.mem_singleton.1 hp with rfl
      exact absurd hs (by decide)
    · intro p hp hs
      rcases List.mem_singleton.1 hp with rfl
      decide
  exact ⟨hord, (registry_determinism_repeat snapPair snapPairRenamed
    [uDef, dDef] hord rfl rfl).1⟩

/-! ## The two wiring variants (C10) -/

theorem finishV1_err (defs : List CalcDef) (a : WireOutcome) :
    (finishV1 defs a).err = a.err := by
  unfold finishV1
  split
  · rfl
  · rfl

theorem finishV1_of_none {a : WireOutcome} (defs : List CalcDef)
    (h : a.err = none) :
    finishV1 defs a = { a with st := ⟨a.st.snapshot,
      finalSeed a.st.nodes defs a.st.registry, a.st.nodes⟩ } := by
  unfold finishV1
  split
  · rename_i e heq
    rw [h] at heq
    cases heq
  · rfl

/-- C10 counterexample: on the dependency-ordered list `[u, d]` (where `d`
references `calculations.u`), the first variant leaves `d`'s slot holding
`undefined` when wiring returns — its node read the registry-slot binding
before the final seeding pass — while the second variant leaves `5`; the
variants are not observationally equivalent. -/
theorem wiring_variants_counterexample :
    regGet v1Wired.st.registry "d" = some .undef
    ∧ regGet inOrderWired.st.registry "d" = some (.num 5)
    ∧ regGet v1Wired.st.registry "d" ≠ regGet inOrderWired.st.registry "d" := by
  refine ⟨rfl, rfl, ?_⟩
  rw [show regGet v1Wired.st.registry "d" = some .undef from rfl,
    show regGet inOrderWired.st.registry "d" = some (.num 5) from rfl]
  simp

/-- C10 amended: restricted to definition lists with unique ids and no
calculation-reference dependency, the two variants are observationally
equivalent when wiring returns — same Result Registry contents, same
nodes, and one teardown handle per definition. -/
theorem wiring_variants_agree_without_calc_refs (snap : JSVal)
    (defs : List CalcDef)
    (hnoref : ∀ d ∈ defs, ∀ p ∈ d.dependsOn,
        jsStartsWith p "calculations." = false)
    (hnodup : (defs.map CalcDef.id).Nodup)
    (herr : (wireCalculationsV1 snap defs).err = none) :
    (wireCalculationsV1 snap defs).st.registry
        = (wireCalculations snap defs).st.registry
    ∧ (wireCalculationsV1 snap defs).st.nodes
        = (wireCalculations snap defs).st.nodes
    ∧ (wireCalculationsV1 snap defs).unsubs = defs.length
    ∧ (wireCalculations snap defs).unsubs = defs.length
    ∧ (wireCalculations snap defs).err = none := by
  have hA : (defs.foldl wireStepV1
      ⟨⟨snap, seedRegistry defs, []⟩, 0, [], none⟩).err = none := by
    rw [← finishV1_err defs]
    exact herr
  obtain ⟨c1, c2, c3, c4, c5, c6, c7, c8⟩ := v1v2_loop defs
    ⟨⟨snap, seedRegistry defs, []⟩, 0, [], none⟩
    ⟨⟨snap, seedRegistry defs, []⟩, 0, [], none⟩
    [] (seedRegistry defs) hnoref
    (fun d _ e he => absurd he (List.not_mem_nil e))
    hnodup rfl rfl rfl rfl rfl rfl rfl rfl hA
  have hv1 : wireCalculationsV1 snap defs
      = { defs.foldl wireStepV1 ⟨⟨snap, seedRegistry defs, []⟩, 0, [], none⟩
          with st := ⟨(defs.foldl wireStepV1
              ⟨⟨snap, seedRegistry defs, []⟩, 0, [], none⟩).st.snapshot,
            finalSeed (defs.foldl wireStepV1
              ⟨⟨snap, seedRegistry defs, []⟩, 0, [], none⟩).st.nodes defs
              (defs.foldl wireStepV1
                ⟨⟨snap, seedRegistry defs, []⟩, 0, [], none⟩).st.registry,
            (defs.foldl wireStepV1
              ⟨⟨snap, seedRegistry defs, []⟩, 0, [], none⟩).st.nodes⟩ } :=
    finishV1_of_none defs hA
  have hunsubs2 : (wireCalculations snap defs).unsubs = defs.length := by
    have := wire_unsubs_count defs
      ⟨⟨snap, seedRegistry defs, []⟩, 0, [], none⟩ rfl c6
    simpa using this
  refine ⟨?_, ?_, ?_, hunsubs2, c6⟩
  · rw [hv1]
    show finalSeed (defs.foldl wireStepV1
          ⟨⟨snap, seedRegistry defs, []⟩, 0, [], none⟩).st.nodes defs
        (defs.foldl wireStepV1
          ⟨⟨snap, seedRegistry defs, []⟩, 0, [], none⟩).st.registry
      = (defs.foldl wireStep
          ⟨⟨snap, seedRegistry defs, []⟩, 0, [], none⟩).st.registry
    rw [c7, c8]
    simp
  · rw [hv1]
    exact c2
  · rw [hv1]
    show (defs.foldl wireStepV1
        ⟨⟨snap, seedRegistry defs, []⟩, 0, [], none⟩).unsubs = defs.length
    rw [c3]
    exact hunsubs2

/-- Witness for C10 on a one-definition list with a snapshot-path
dependency only. -/
theorem wiring_variants_agree_without_calc_refs_witness :
    (∀ d ∈ [uDef], ∀ p ∈ d.dependsOn,
        jsStartsWith p "calculations." = false)
    ∧ (wireCalculationsV1 snapPair [uDef]).st.registry
        = (wireCalculations snapPair [uDef]).st.registry
    ∧ (wireCalculationsV1 snapPair [uDef]).unsubs = 1 := by
  have hnoref : ∀ d ∈ [uDef], ∀ p ∈ d.dependsOn,
      jsStartsWith p "calculations." = false := by
    intro d hd p hp
    rcases List.mem_singleton.1 hd with rfl
    rcases List.mem_singleton.1 hp with rfl
    decide
  have h := wiring_variants_agree_without_calc_refs snapPair [uDef] hnoref
    (by decide) rfl
  exact ⟨hnoref, h.1, h.2.2.1⟩

end Brewdio
